import Mathlib

/-!
Verification of the CSP engine of the TennerGridCSP repository
(`src/CSP.js`, plus the worker entry `src/unnamed/part_000`).

The JavaScript is shallowly embedded:
* variables are opaque tokens, modelled as `Nat`;
* a JS assignment object `{variable: value}` is modelled as an association
  list in key-insertion order (`Assignment`); JS objects have unique keys,
  and every construction below inserts a key at most once, so lookup by
  first match coincides with JS property lookup;
* a JS domains object is modelled as a total function `Var → List Int`
  (the `CSP` constructor guarantees every variable has a domain entry);
* in-place object mutation is threaded explicitly: `forwardChecking`
  returns the assignment and domain map it leaves behind, and a small heap
  of domain objects models the aliasing between `this.domains` and the
  local copies created by the forward-checking searches;
* the unbounded JS recursion of the searches is driven by an explicit
  fuel parameter; fuel exhaustion yields `none`, and the adequacy bound
  (`fuel ≥ #variables + 1`) is carried by the theorems that need exactness.
-/

abbrev Var := Nat

/-- A JS assignment object `{variable: value, ...}` in key-insertion order. -/
abbrev Assignment := List (Var × Int)

/-- A JS domains object: every variable has an ordered candidate list. -/
abbrev DomMap := Var → List Int

/-- `assignment[v]` — JS property read, `undefined ↦ none` (keys are unique
in a JS object, so first-match lookup is property lookup). -/
def lookupA (a : Assignment) (v : Var) : Option Int :=
  match a with
  | [] => none
  | p :: rest => if p.1 = v then some p.2 else lookupA rest v

/-- `v in assignment` / `assignment[v] !== undefined`. -/
def isBound (a : Assignment) (v : Var) : Bool :=
  (lookupA a v).isSome

/-- `Object.keys(assignment).length` (keys are unique in a JS object). -/
def sizeA (a : Assignment) : Nat := a.length

/-- `assignment[v] = x` — JS property write: overwrite in place if the key
exists, otherwise append the key. -/
def insertA (a : Assignment) (v : Var) (x : Int) : Assignment :=
  if isBound a v then a.map (fun p => if p.1 == v then (v, x) else p)
  else a ++ [(v, x)]

/-- `delete assignment[v]`. -/
def removeA (a : Assignment) (v : Var) : Assignment :=
  a.filter (fun p => p.1 != v)

/-- Update one entry of a domains object (`domains[v] = xs`). -/
def updateD (d : DomMap) (v : Var) (xs : List Int) : DomMap :=
  fun u => if u = v then xs else d u

/-- The keys of an assignment object. -/
def keysA (a : Assignment) : List Var := a.map Prod.fst

/- ### The two constraint variants (`src/CSP.js` lines 3–46) -/

/--
`AllDifferentConstraint.satisfied` (`src/CSP.js` lines 7–15): compares
`variables[0]` against every other variable of the constraint; a conflict is
reported only when the other variable is assigned and holds the same value
as `variables[0]` (`undefined === x` is false for any assigned `x`, so an
unassigned `variables[0]` never conflicts).
-/
def allDiffSatisfied (vars : List Var) (a : Assignment) : Bool :=
  match vars.head? with
  | none => true
  | some v0 =>
    vars.all (fun v =>
      !((v != v0) && (lookupA a v).isSome && (lookupA a v0 == lookupA a v)))

/--
The addend accumulation loop of `ColumnSumConstraint.satisfied`
(`src/CSP.js` lines 27–34): sum and count of the assigned entries of
`vars`, skipping every occurrence of the target variable `tv`.
-/
def sumCount (tv : Var) (a : Assignment) : List Var → Int × Nat
  | [] => (0, 0)
  | v :: rest =>
    let p := sumCount tv a rest
    if v = tv then p
    else
      match lookupA a v with
      | some x => (x + p.1, p.2 + 1)
      | none => p

/--
`ColumnSumConstraint.satisfied` (`src/CSP.js` lines 24–45). The target is
`variables[variables.length-1]`; with the target unassigned, satisfied.
Otherwise violated when all `variables.length - 1` addends are assigned with
the wrong sum, or when the partial sum already exceeds the target.
-/
def colSumSatisfied (vars : List Var) (a : Assignment) : Bool :=
  match vars.getLast? with
  | none => true
  | some tv =>
    match lookupA a tv with
    | none => true
    | some targetSum =>
      let p := sumCount tv a vars
      if p.2 = vars.length - 1 && p.1 != targetSum then false
      else if p.1 > targetSum then false
      else true

/-- The constraint variants of `src/CSP.js`. -/
inductive Constraint where
  | allDiff (vars : List Var)
  | colSum (vars : List Var)
  deriving DecidableEq, Repr

/-- `constraint.variables`. -/
def Constraint.varsOf : Constraint → List Var
  | .allDiff vs => vs
  | .colSum vs => vs

/-- `constraint.satisfied(assignment)` dispatch. -/
def Constraint.satisfied : Constraint → Assignment → Bool
  | .allDiff vs, a => allDiffSatisfied vs a
  | .colSum vs, a => colSumSatisfied vs a

/- ### The CSP model (`src/CSP.js` lines 47–79) -/

/--
The `CSP` object: variable list (`this.variables` — `vars` here because
`variables` is a Lean command name), domains object and the
variable→constraint index built by `addConstraint`. The
`consistencyChecks` counter is a pure observability counter and is not
modelled.
-/
structure CSP where
  vars : List Var
  domains : DomMap
  constraints : Var → List Constraint

/-- `CSP.consistent(variable, assignment)` (`src/CSP.js` lines 69–79):
every constraint indexed under `variable` must be satisfied. -/
def consistent (csp : CSP) (v : Var) (a : Assignment) : Bool :=
  (csp.constraints v).all (fun c => c.satisfied a)

/--
The loop of `CSP.addConstraint` (`src/CSP.js` lines 60–68), with the throw
modelled as a `true` first component and the in-place mutation of
`this.constraints` threaded: for each variable of the constraint in order,
either throw (if the variable is not in the CSP) leaving the index as
mutated so far, or push the constraint onto that variable's list.
-/
def addConstraintLoop (vs : List Var) (c : Constraint)
    (idx : Var → List Constraint) : List Var → Bool × (Var → List Constraint)
  | [] => (false, idx)
  | v :: rest =>
    if v ∈ vs then
      addConstraintLoop vs c (fun u => if u = v then idx u ++ [c] else idx u) rest
    else (true, idx)

/-- `CSP.addConstraint(constraint)`: `(threw, final constraint index)`. -/
def addConstraint (vs : List Var) (c : Constraint)
    (idx : Var → List Constraint) : Bool × (Var → List Constraint) :=
  addConstraintLoop vs c idx c.varsOf

/--
The reduce of `CSP.mrv` (`src/CSP.js` lines 179–188) over a given domains
object `d` (the source always reads `this.domains`): keep the accumulator
only when its domain is strictly smaller, so ties go to the later element.
`unassigned` is never empty at the call sites (JS `reduce` throws on an
empty array; the `[]` case is an arbitrary total-function default).
-/
def mrvD (d : DomMap) : List Var → Var
  | [] => 0
  | v :: rest =>
    rest.foldl (fun x y => if (d x).length < (d y).length then x else y) v

/-- `CSP.mrv(unassigned)`: the reduce always reads `this.domains`. -/
def mrv (csp : CSP) (unassigned : List Var) : Var :=
  mrvD csp.domains unassigned

/- ### Forward checking (`src/CSP.js` lines 190–211)

The three nested loops of `CSP.forwardChecking`, with the in-place
mutations of `assignment` and `domains` threaded through explicitly:
each function returns `(result, assignment, domains)` as the objects stand
when the JS control flow leaves that loop. -/

/-- Whether `forwardChecking` propagates a constraint from `variable`:
`(constraint instanceof AllDifferentConstraint && constraint.variables[0]
=== variable) || constraint instanceof ColumnSumConstraint`. -/
def fcTriggers (c : Constraint) (justBound : Var) : Bool :=
  match c with
  | .allDiff vs => vs.head? == some justBound
  | .colSum _ => true

/-- The innermost loop (`for(const val of domains[neighbor])`, lines
195–205): the iterated list is the array read when the loop starts;
the tentative binding `assignment[neighbor] = val` is retracted on every
path; inconsistent values are filtered out of the neighbor's domain, and an
emptied domain aborts with `false`. -/
def fcVals (csp : CSP) (nb : Var) :
    List Int → Assignment → DomMap → Bool × Assignment × DomMap
  | [], a, d => (true, a, d)
  | x :: rest, a, d =>
    let a1 := insertA a nb x
    if consistent csp nb a1 then fcVals csp nb rest (removeA a1 nb) d
    else
      let d1 := updateD d nb ((d nb).filter (fun y => y != x))
      if (d1 nb).length = 0 then (false, removeA a1 nb, d1)
      else fcVals csp nb rest (removeA a1 nb) d1

/-- The neighbor loop (`for(const neighbor of constraint.variables)`,
lines 193–207): already-assigned neighbors are skipped. -/
def fcNeighbors (csp : CSP) :
    List Var → Assignment → DomMap → Bool × Assignment × DomMap
  | [], a, d => (true, a, d)
  | nb :: rest, a, d =>
    if isBound a nb then fcNeighbors csp rest a d
    else
      match fcVals csp nb (d nb) a d with
      | (false, a1, d1) => (false, a1, d1)
      | (true, a1, d1) => fcNeighbors csp rest a1 d1

/-- The outer constraint loop (`for(const constraint of
this.constraints[variable])`, lines 191–209). -/
def fcConstraints (csp : CSP) (justBound : Var) :
    List Constraint → Assignment → DomMap → Bool × Assignment × DomMap
  | [], a, d => (true, a, d)
  | c :: rest, a, d =>
    if fcTriggers c justBound then
      match fcNeighbors csp c.varsOf a d with
      | (false, a1, d1) => (false, a1, d1)
      | (true, a1, d1) => fcConstraints csp justBound rest a1 d1
    else fcConstraints csp justBound rest a d

/-- `CSP.forwardChecking(variable, assignment, domains)`. -/
def forwardChecking (csp : CSP) (justBound : Var) (a : Assignment)
    (d : DomMap) : Bool × Assignment × DomMap :=
  fcConstraints csp justBound (csp.constraints justBound) a d

/- ### The four search strategies (`src/CSP.js` lines 80–177)

The JS `for` loops over domain values return the first recursive success
and fall through otherwise; that is exactly a first-`some` scan. -/

/-- First `some` produced by `f` along a list (the body of the JS value
loops: on success return immediately, otherwise continue). -/
def firstSome (f : α → Option β) : List α → Option β
  | [] => none
  | x :: rest =>
    match f x with
    | some r => some r
    | none => firstSome f rest

/--
`CSP.backtrackingSearch(assignment)` (`src/CSP.js` lines 80–103), with
fuel driving the recursion. The JS picks the first unassigned variable; if
`unassigned` is empty while the assignment is incomplete the JS throws
(`domains[undefined]` is not iterable) — that dead branch is modelled as
`none`; it is unreachable from the empty assignment.
-/
def backtrackingSearch (csp : CSP) : Nat → Assignment → Option Assignment
  | 0, _ => none
  | n + 1, a =>
    if sizeA a = csp.vars.length then some a
    else
      match csp.vars.filter (fun v => !(isBound a v)) with
      | [] => none
      | first :: _ =>
        firstSome
          (fun x =>
            let a1 := insertA a first x
            if consistent csp first a1 then backtrackingSearch csp n a1
            else none)
          (csp.domains first)

/-- `CSP.backtrackingSearchWithMRV(assignment)` (lines 105–127): identical
to plain backtracking except the branching variable is `mrv(unassigned)`. -/
def backtrackingSearchWithMRV (csp : CSP) : Nat → Assignment → Option Assignment
  | 0, _ => none
  | n + 1, a =>
    if sizeA a = csp.vars.length then some a
    else
      match csp.vars.filter (fun v => !(isBound a v)) with
      | [] => none
      | v :: rest =>
        let first := mrv csp (v :: rest)
        firstSome
          (fun x =>
            let a1 := insertA a first x
            if consistent csp first a1 then backtrackingSearchWithMRV csp n a1
            else none)
          (csp.domains first)

/--
`CSP.forwardCheckingSearch(assignment, domains)` (lines 129–152): values
are drawn from the threaded domains object `d`; after a consistent bind the
search copies `d`, runs `forwardChecking` on the copy and recurses with the
assignment and domain objects as `forwardChecking` left them.
-/
def forwardCheckingSearch (csp : CSP) :
    Nat → Assignment → DomMap → Option Assignment
  | 0, _, _ => none
  | n + 1, a, d =>
    if sizeA a = csp.vars.length then some a
    else
      match csp.vars.filter (fun v => !(isBound a v)) with
      | [] => none
      | first :: _ =>
        firstSome
          (fun x =>
            let a1 := insertA a first x
            if consistent csp first a1 then
              match forwardChecking csp first a1 d with
              | (true, a2, d2) => forwardCheckingSearch csp n a2 d2
              | (false, _, _) => none
            else none)
          (d first)

/-- `CSP.forwardCheckingSearchWithMRV(assignment, domains)` (lines
154–177): forward checking with the MRV branching variable; note that
`mrv` reads `this.domains`, not the locally pruned `d`. -/
def forwardCheckingSearchWithMRV (csp : CSP) :
    Nat → Assignment → DomMap → Option Assignment
  | 0, _, _ => none
  | n + 1, a, d =>
    if sizeA a = csp.vars.length then some a
    else
      match csp.vars.filter (fun v => !(isBound a v)) with
      | [] => none
      | v :: rest =>
        let first := mrv csp (v :: rest)
        firstSome
          (fun x =>
            let a1 := insertA a first x
            if consistent csp first a1 then
              match forwardChecking csp first a1 d with
              | (true, a2, d2) => forwardCheckingSearchWithMRV csp n a2 d2
              | (false, _, _) => none
            else none)
          (d first)


/- ### Predicates written from the specification's words, for comparison
with the code's definitions -/

/--
Modelled from the spec sentence behind C2: "at least two *assigned*
variables in `vars` hold equal values" (two distinct variable tokens of
`vars`, both assigned, with equal values).
-/
def twoAssignedShare (vars : List Var) (a : Assignment) : Bool :=
  vars.any (fun u => vars.any (fun v =>
    (u != v) && (lookupA a u).isSome && (lookupA a u == lookupA a v)))

/--
Modelled from C3's words: the target is the last element of `vars` and the
addends are "all preceding" elements (`vars.dropLast`, positional); with
the target assigned, violation means "count equals the number of addends
and sum differs from the target, or sum strictly exceeds the target",
where sum and count range over the assigned addends.
-/
def colSumClaimViolated (vars : List Var) (a : Assignment) : Bool :=
  match vars.getLast? with
  | none => false
  | some tv =>
    match lookupA a tv with
    | none => false
    | some t =>
      let assigned := vars.dropLast.filterMap (lookupA a)
      decide ((assigned.length = vars.dropLast.length ∧ assigned.sum ≠ t) ∨
        assigned.sum > t)

/--
Modelled from C6's words: "ties broken by encountering order during the
left-fold comparison (first-encountered minimum wins)" — the first variable
of the list attaining the minimal domain size.
-/
def firstMinVar (d : DomMap) (l : List Var) : Option Var :=
  l.find? (fun v => l.all (fun u => (d v).length ≤ (d u).length))

/--
The recursion states `(assignment, local domain copy)` of
`forwardCheckingSearchWithMRV` (`src/CSP.js` lines 154–177): the entry
state pairs the initial assignment with `this.domains`, and each recursive
call receives the extended assignment and the domain copy pruned by a
successful `forwardChecking`.
-/
inductive FCMRVReaches (csp : CSP) : Assignment → DomMap → Prop where
  | init (a0 : Assignment) : FCMRVReaches csp a0 csp.domains
  | step {a : Assignment} {d : DomMap} {first : Var} {x : Int}
      {a2 : Assignment} {d2 : DomMap}
      (hr : FCMRVReaches csp a d)
      (hsz : sizeA a ≠ csp.vars.length)
      (hne : csp.vars.filter (fun v => !(isBound a v)) ≠ [])
      (hfirst : first = mrv csp (csp.vars.filter (fun v => !(isBound a v))))
      (hx : x ∈ d first)
      (hcons : consistent csp first (insertA a first x) = true)
      (hfc : forwardChecking csp first (insertA a first x) d = (true, a2, d2)) :
      FCMRVReaches csp a2 d2

/- ### Concrete models used by counterexamples and witnesses -/

/-- A column-sum model with a negative addend value: variables `x=0`,
`y=1`, target `t=2`; domains `{5}`, `{-1}`, `{4}`. -/
def csp4 : CSP :=
  { vars := [0, 1, 2]
    domains := fun v =>
      if v = 0 then [5] else if v = 1 then [-1] else if v = 2 then [4] else []
    constraints := fun v => if v ≤ 2 then [Constraint.colSum [0, 1, 2]] else [] }

/-- The registered constraints of `csp4`. -/
def R4 : List Constraint := [Constraint.colSum [0, 1, 2]]

/-- A column-sum model where forward checking prunes the target's local
domain asymmetrically: variables `0`, `1`, target `2`; domains `{5}`,
`{0, 1}`, `{3, 4, 6}`. -/
def csp5 : CSP :=
  { vars := [0, 1, 2]
    domains := fun v =>
      if v = 0 then [5] else if v = 1 then [0, 1]
      else if v = 2 then [3, 4, 6] else [] 
    constraints := fun v => if v ≤ 2 then [Constraint.colSum [0, 1, 2]] else [] }

/-- A two-variable model whose domains have equal size (an MRV tie). -/
def cspTie : CSP :=
  { vars := [7, 8]
    domains := fun _ => [0]
    constraints := fun _ => [] }

/-- A three-variable model with domain sizes `[3, 1, 2]` (C6's example). -/
def cspSizes312 : CSP :=
  { vars := [0, 1, 2]
    domains := fun v =>
      if v = 0 then [1, 2, 3] else if v = 1 then [9] else if v = 2 then [4, 5]
      else []
    constraints := fun _ => [] }

/- ### The randomized seeder (`src/unnamed/part_000` lines 71–109) -/

/-- The randomness consumed by `randomInitialState`: for attempt `r` and
grid-variable position `k`, a coin (`Math.random() < 0.5`) and the shuffled
grid-cell domain produced by the in-place randomized `sort`. -/
structure Orc where
  coin : Nat → Nat → Bool
  shuf : Nat → Nat → List Int

/-- Step 1 of `randomInitialState`: walk the non-target variables; with a
coin flip, bind the first value of the shuffled domain that keeps the
partial assignment consistent (if any). -/
def prefill (csp : CSP) (isTarget : Var → Bool) (orc : Orc) (r : Nat) :
    Assignment :=
  ((csp.vars.filter (fun v => !(isTarget v))).foldl
    (fun (p : Assignment × Nat) v =>
      if orc.coin r p.2 then
        match (orc.shuf r p.2).find?
            (fun x => consistent csp v (insertA p.1 v x)) with
        | some x => (insertA p.1 v x, p.2 + 1)
        | none => (p.1, p.2 + 1)
      else (p.1, p.2 + 1))
    ([], 0)).1

/-- The domain narrowing of `randomInitialState`: pin every pre-filled
variable's domain to its assigned value (`csp.domains[variable] =
[assignment[variable]]`). -/
def narrowDomains (d : DomMap) (a : Assignment) (vars : List Var) : DomMap :=
  vars.foldl
    (fun dd v =>
      match lookupA a v with
      | some x => updateD dd v [x]
      | none => dd) d

/-- The merge step of `randomInitialState`: copy the target-cell bindings
of the search result into the pre-fill assignment. -/
def mergeTargets (isTarget : Var → Bool) (a : Assignment) (res : Assignment) :
    Assignment :=
  res.foldl (fun acc p => if isTarget p.1 then insertA acc p.1 p.2 else acc) a

/--
`randomInitialState(csp, ...)` (`src/unnamed/part_000` lines 71–109), with
`csp.domains` threaded as the state `d`, retry attempts counted by `r`, the
unbounded retry recursion cut off by `fuel`, and the search recursion depth
by `sfuel`. The snapshot `savedDomains` is taken after the pre-fill but
before the narrowing; when the internal search fails the recursion restarts
from the snapshot.
-/
def randomInitialState (csp : CSP) (isTarget : Var → Bool) (orc : Orc)
    (sfuel : Nat) : Nat → DomMap → Nat → Option Assignment × DomMap
  | 0, d, _ => (none, d)
  | fuel + 1, d, r =>
    let a := prefill csp isTarget orc r
    let savedDomains := d
    let d1 := narrowDomains d a csp.vars
    match forwardCheckingSearchWithMRV { csp with domains := d1 } sfuel a d1 with
    | none => randomInitialState csp isTarget orc sfuel fuel savedDomains (r + 1)
    | some res => (some (mergeTargets isTarget a res), d1)

/-- A one-variable model with an empty domain: the internal seeder search
always fails on it, so the seeder retries forever. -/
def csp9 : CSP :=
  { vars := [0]
    domains := fun _ => []
    constraints := fun _ => [] }

/-- An oracle whose coins always come up "do not pre-fill". -/
def orcNone : Orc :=
  { coin := fun _ _ => false
    shuf := fun _ _ => [] }

/- ### A heap of domain objects (for the frame property C7)

`this.domains` and the local copies `{...domains}` created by the
forward-checking searches are JS objects with identity; `forwardChecking`
mutates the object passed to it. To state that the model's own domains
object is never touched, the searches are also rendered against an explicit
heap of domain objects: references are indices, `{...domains}` allocates a
fresh cell holding a copy of the referenced cell, and `forwardChecking`
rewrites exactly the cell it was handed. The inner arrays are never
mutated in place by the JS (`filter` allocates), so cells hold plain
values. -/

abbrev Heap := List DomMap

/-- Dereference a domain object (out-of-range never occurs at use sites). -/
def dGet (h : Heap) (r : Nat) : DomMap := h.getD r (fun _ => [])

/-- Overwrite the cell a reference points to. -/
def hSet (h : Heap) (r : Nat) (d : DomMap) : Heap := h.set r d

/--
The value loop of `forwardCheckingSearch` (lines 137–150) against the
heap: on a consistent bind, allocate `localDomain = {...domains}` as a
fresh cell, run `forwardChecking` on it (the cell ends up holding the
pruned map), and recurse through `rec` with the new reference; iterate the
value list read from the `domains` reference when the loop started.
-/
def fcsHLoop (csp : CSP) (first : Var)
    (rec : Assignment → Nat → Heap → Option Assignment × Heap)
    (a : Assignment) (dref : Nat) :
    List Int → Heap → Option Assignment × Heap
  | [], h => (none, h)
  | x :: rest, h =>
    let a1 := insertA a first x
    if consistent csp first a1 then
      let fcr := forwardChecking csp first a1 (dGet h dref)
      let h2 := hSet (h ++ [dGet h dref]) h.length fcr.2.2
      if fcr.1 then
        let rr := rec fcr.2.1 h.length h2
        match rr.1 with
        | some res => (some res, rr.2)
        | none => fcsHLoop csp first rec a dref rest rr.2
      else fcsHLoop csp first rec a dref rest h2
    else fcsHLoop csp first rec a dref rest h

/-- `CSP.forwardCheckingSearch` against the heap: `dref` is the reference
held by the `domains` parameter (`this.domains` at the top call). -/
def forwardCheckingSearchH (csp : CSP) :
    Nat → Assignment → Nat → Heap → Option Assignment × Heap
  | 0, _, _, h => (none, h)
  | n + 1, a, dref, h =>
    if sizeA a = csp.vars.length then (some a, h)
    else
      match csp.vars.filter (fun v => !(isBound a v)) with
      | [] => (none, h)
      | first :: _ =>
        fcsHLoop csp first (forwardCheckingSearchH csp n) a dref
          ((dGet h dref) first) h

/-- `CSP.forwardCheckingSearchWithMRV` against the heap: `mref` is the
reference held by `this.domains`, which `mrv` always reads. -/
def forwardCheckingSearchWithMRVH (csp : CSP) (mref : Nat) :
    Nat → Assignment → Nat → Heap → Option Assignment × Heap
  | 0, _, _, h => (none, h)
  | n + 1, a, dref, h =>
    if sizeA a = csp.vars.length then (some a, h)
    else
      match csp.vars.filter (fun v => !(isBound a v)) with
      | [] => (none, h)
      | v :: rest =>
        fcsHLoop csp (mrvD (dGet h mref) (v :: rest))
          (forwardCheckingSearchWithMRVH csp mref n) a dref
          ((dGet h dref) (mrvD (dGet h mref) (v :: rest))) h

/-- The registration invariant `addConstraint` establishes for every
successfully registered constraint: each of its variables is a CSP
variable and indexes the constraint. -/
def Registered (csp : CSP) (R : List Constraint) : Prop :=
  ∀ c ∈ R, ∀ v ∈ c.varsOf, v ∈ csp.vars ∧ c ∈ csp.constraints v

/-- A two-variable column-sum model used by the C1 counterexample. -/
def csp1 : CSP :=
  { vars := [0, 1]
    domains := fun _ => [0]
    constraints := fun v => if v ≤ 1 then [Constraint.colSum [0, 1]] else [] }

/-- The registered constraints of `csp1`. -/
def R1 : List Constraint := [Constraint.colSum [0, 1]]

/-- Every candidate value of every variable's domain is nonnegative (the
Tenner-Grid domains are `0..9` for cells and nonnegative sums for
targets). -/
def NonnegDomains (csp : CSP) : Prop :=
  ∀ v ∈ csp.vars, ∀ x ∈ csp.domains v, 0 ≤ x

/-- The assignment object binding every variable of `l` to its value under
the valuation `s`, in order. -/
def totalOf (s : Var → Int) (l : List Var) : Assignment :=
  l.map (fun v => (v, s v))

/-- `s` is a total solution of the model: a domain value for every
variable, satisfying every registered constraint. -/
def IsSolutionVal (csp : CSP) (R : List Constraint) (s : Var → Int) : Prop :=
  (∀ v ∈ csp.vars, s v ∈ csp.domains v) ∧
  (∀ c ∈ R, c.satisfied (totalOf s csp.vars) = true)

/-- A well-formed model: distinct variables (the spec requires an ordered
sequence of unique tokens), a registration-closed constraint index, and an
index containing only registered constraints. -/
def WFModel (csp : CSP) (R : List Constraint) : Prop :=
  Registered csp R ∧ (∀ v ∈ csp.vars, ∀ c ∈ csp.constraints v, c ∈ R) ∧
  csp.vars.Nodup

/-! ## Theorems -/

/- ### Basic lemmas about the assignment primitives -/

theorem lookupA_nil (v : Var) : lookupA [] v = none := rfl

theorem lookupA_cons (p : Var × Int) (a : Assignment) (v : Var) :
    lookupA (p :: a) v = if p.1 = v then some p.2 else lookupA a v := rfl

theorem lookupA_append (a b : Assignment) (v : Var) :
    lookupA (a ++ b) v = (lookupA a v).or (lookupA b v) := by
  induction a with
  | nil => simp [lookupA]
  | cons p rest ih =>
    by_cases h : p.1 = v <;> simp [lookupA_cons, h, ih, Option.or]

theorem lookupA_singleton (v u : Var) (x : Int) :
    lookupA [(v, x)] u = if v = u then some x else none := by
  by_cases h : v = u <;> simp [lookupA_cons, lookupA_nil, h]

theorem lookupA_eq_none_iff (a : Assignment) (v : Var) :
    lookupA a v = none ↔ ∀ p ∈ a, p.1 ≠ v := by
  induction a with
  | nil => simp [lookupA]
  | cons p rest ih =>
    by_cases h : p.1 = v <;> simp [lookupA_cons, h, ih]

theorem isBound_iff_mem_keys (a : Assignment) (v : Var) :
    isBound a v = true ↔ v ∈ keysA a := by
  induction a with
  | nil => simp [isBound, lookupA, keysA]
  | cons p rest ih =>
    by_cases h : p.1 = v
    · simp [isBound, lookupA_cons, h, keysA]
    · simp only [isBound, lookupA_cons, if_neg h, keysA, List.map_cons,
        List.mem_cons] at *
      rw [ih]
      constructor
      · exact Or.inr
      · rintro (hc | hm)
        · exact absurd hc.symm h
        · exact hm

theorem lookupA_mem (a : Assignment) (v : Var) (x : Int)
    (h : lookupA a v = some x) : (v, x) ∈ a := by
  induction a with
  | nil => simp [lookupA] at h
  | cons p rest ih =>
    rw [lookupA_cons] at h
    by_cases hp : p.1 = v
    · rw [if_pos hp] at h
      have hpx : p = (v, x) := by
        cases p; simp_all
      rw [← hpx]
      exact List.mem_cons_self _ _
    · rw [if_neg hp] at h
      exact List.mem_cons_of_mem _ (ih h)

theorem insertA_not_bound (a : Assignment) (v : Var) (x : Int)
    (h : lookupA a v = none) : insertA a v x = a ++ [(v, x)] := by
  simp [insertA, isBound, h]

theorem lookupA_insertA_fresh (a : Assignment) (v : Var) (x : Int)
    (h : lookupA a v = none) (u : Var) :
    lookupA (insertA a v x) u = if v = u then some x else lookupA a u := by
  rw [insertA_not_bound a v x h, lookupA_append, lookupA_singleton]
  by_cases huv : v = u
  · subst huv; simp [h, Option.or]
  · simp only [if_neg huv]
    cases hu : lookupA a u <;> simp [Option.or]

theorem sizeA_insertA_fresh (a : Assignment) (v : Var) (x : Int)
    (h : lookupA a v = none) : sizeA (insertA a v x) = sizeA a + 1 := by
  rw [insertA_not_bound a v x h]; simp [sizeA]

theorem removeA_not_bound (a : Assignment) (v : Var)
    (h : lookupA a v = none) : removeA a v = a := by
  rw [lookupA_eq_none_iff] at h
  simp only [removeA]
  exact List.filter_eq_self.mpr (fun p hp => by simpa using h p hp)

/-- Adding a fresh key and deleting it restores the object. -/
theorem removeA_insertA_fresh (a : Assignment) (v : Var) (x : Int)
    (h : lookupA a v = none) : removeA (insertA a v x) v = a := by
  rw [insertA_not_bound a v x h, removeA, List.filter_append]
  have h1 : a.filter (fun p => p.1 != v) = a := removeA_not_bound a v h
  simp only [removeA] at h1
  simp [h1]

theorem keysA_insertA_fresh (a : Assignment) (v : Var) (x : Int)
    (h : lookupA a v = none) : keysA (insertA a v x) = keysA a ++ [v] := by
  rw [insertA_not_bound a v x h]; simp [keysA]



/- ### The AllDifferent constraint: characterization (C2) -/

/--
What `AllDifferentConstraint.satisfied` actually tests: a violation is
reported exactly when the first variable of the constraint is compared
equal to some other assigned variable of the constraint.
-/
theorem allDiffSatisfied_eq_false_iff (vars : List Var) (a : Assignment) :
    allDiffSatisfied vars a = false ↔
      ∃ v0, vars.head? = some v0 ∧ ∃ v ∈ vars, v ≠ v0 ∧
        (lookupA a v).isSome = true ∧ lookupA a v0 = lookupA a v := by
  cases vars with
  | nil => simp [allDiffSatisfied]
  | cons w rest =>
    constructor
    · intro hf
      simp only [allDiffSatisfied, List.head?_cons] at hf
      rw [List.all_eq_false] at hf
      obtain ⟨v, hv, hp⟩ := hf
      have hb : ((v != w) && (lookupA a v).isSome &&
          (lookupA a w == lookupA a v)) = true := by
        cases hx : ((v != w) && (lookupA a v).isSome &&
            (lookupA a w == lookupA a v)) with
        | true => rfl
        | false => exact absurd (by rw [hx]; rfl) hp
      rw [Bool.and_eq_true, Bool.and_eq_true] at hb
      obtain ⟨⟨h1, h2⟩, h3⟩ := hb
      exact ⟨w, rfl, v, hv, bne_iff_ne.mp h1, h2, beq_iff_eq.mp h3⟩
    · rintro ⟨v0, hh, v, hv, hne, hsome, heq⟩
      have hw : w = v0 := by simpa using hh
      subst hw
      simp only [allDiffSatisfied, List.head?_cons]
      rw [List.all_eq_false]
      refine ⟨v, hv, ?_⟩
      have hsome2 : ¬ lookupA a v = none := by
        intro hc; rw [hc] at hsome; simp at hsome
      simp [hne, hsome2, heq]

/--
C2 counterexample: in `AllDifferentConstraint` over `[0, 1, 2]` with the
assignment `{1: 7, 2: 7}`, two assigned variables share a value, yet
`satisfied` returns `true` (the code only ever compares `variables[0]`
against the others, and variable `0` is unassigned here) — contradicting
the claimed "false iff at least two assigned variables share a value".
-/
theorem allDiff_claim_counterexample :
    allDiffSatisfied [0, 1, 2] [(1, 7), (2, 7)] = true ∧
    twoAssignedShare [0, 1, 2] [(1, 7), (2, 7)] = true := by decide

/--
C2 (amended): `AllDifferent.satisfied` tolerates partial assignments, and
returns `false` iff the *first* variable of the constraint is assigned and
some other assigned variable of the constraint holds the same value; in
particular it returns `true` whenever no two assigned variables share a
value, but conflicts not involving the first variable are not detected.
-/
theorem allDiff_satisfied_characterization (vars : List Var) (a : Assignment) :
    (allDiffSatisfied vars a = false ↔
      ∃ v0, vars.head? = some v0 ∧ ∃ v ∈ vars, v ≠ v0 ∧
        (lookupA a v).isSome = true ∧ lookupA a v0 = lookupA a v) ∧
    (twoAssignedShare vars a = false → allDiffSatisfied vars a = true) := by
  refine ⟨allDiffSatisfied_eq_false_iff vars a, fun hno => ?_⟩
  by_contra hfalse
  rw [Bool.not_eq_true, allDiffSatisfied_eq_false_iff] at hfalse
  obtain ⟨v0, hh, v, hv, hne, hsome, heq⟩ := hfalse
  have hv0 : v0 ∈ vars := by
    cases vars with
    | nil => simp at hh
    | cons w rest =>
      have hw : w = v0 := by simpa using hh
      rw [← hw]
      exact List.mem_cons_self _ _
  have : twoAssignedShare vars a = true := by
    simp only [twoAssignedShare, List.any_eq_true, Bool.and_eq_true,
      bne_iff_ne, ne_eq, beq_iff_eq]
    refine ⟨v0, hv0, v, hv, ?_⟩
    have hsome0 : (lookupA a v0).isSome = true := by
      rw [heq]; exact hsome
    exact ⟨⟨fun hc => hne (hc.symm), hsome0⟩, heq⟩
  rw [hno] at this
  exact Bool.false_ne_true this

/- ### The ColumnSum constraint: characterization (C3) -/

/-- The accumulation loop over `addends ++ [tv]` with `tv` not among the
addends computes the sum and count of the assigned addends. -/
theorem sumCount_concat (addends : List Var) (tv : Var) (a : Assignment)
    (h : tv ∉ addends) :
    sumCount tv a (addends ++ [tv]) =
      ((addends.filterMap (lookupA a)).sum,
        (addends.filterMap (lookupA a)).length) := by
  induction addends with
  | nil => simp [sumCount]
  | cons v rest ih =>
    have hvtv : v ≠ tv := fun hc => h (hc ▸ List.mem_cons_self v rest)
    have hrest : tv ∉ rest := fun hc => h (List.mem_cons_of_mem _ hc)
    have hcons : sumCount tv a ((v :: rest) ++ [tv]) =
        (if v = tv then sumCount tv a (rest ++ [tv])
         else match lookupA a v with
              | some x => (x + (sumCount tv a (rest ++ [tv])).1,
                  (sumCount tv a (rest ++ [tv])).2 + 1)
              | none => sumCount tv a (rest ++ [tv])) := rfl
    rw [hcons, if_neg hvtv, ih hrest]
    cases hx : lookupA a v <;> simp [List.filterMap_cons, hx]

/--
C3 counterexample: for a `ColumnSumConstraint` whose variable list is
`[1, 2, 1]` (the target variable `1` also occurs in an addend position)
and assignment `{1: 5, 2: 2}`, the claim's reading — addends are "all
preceding" elements, here `[1, 2]`, all assigned, summing to `7 ≠ 5` —
demands `satisfied = false`, but the code skips every occurrence of the
target variable and returns `true`.
-/
theorem colSum_claim_counterexample :
    colSumSatisfied [1, 2, 1] [(1, 5), (2, 2)] = true ∧
    colSumClaimViolated [1, 2, 1] [(1, 5), (2, 2)] = true := by decide

/-- On constraint shapes whose target occurs only in the last position, the
code agrees exactly with the claim's positional reading. -/
theorem colSum_code_vs_claim_shape (addends : List Var) (tv : Var)
    (a : Assignment) (h : tv ∉ addends) :
    colSumSatisfied (addends ++ [tv]) a =
      !(colSumClaimViolated (addends ++ [tv]) a) := by
  have hlast : (addends ++ [tv]).getLast? = some tv := List.getLast?_concat _
  have hdrop : (addends ++ [tv]).dropLast = addends := by
    simp
  have hlen : (addends ++ [tv]).length - 1 = addends.length := by simp
  cases ht : lookupA a tv with
  | none => simp [colSumSatisfied, colSumClaimViolated, hlast, ht]
  | some t =>
    simp only [colSumSatisfied, colSumClaimViolated, hlast, ht,
      sumCount_concat addends tv a h, hlen, hdrop]
    by_cases hA : (addends.filterMap (lookupA a)).length = addends.length <;>
      by_cases hB : (addends.filterMap (lookupA a)).sum = t <;>
      by_cases hC : (addends.filterMap (lookupA a)).sum > t <;>
      simp [hA, hB, hC]

/--
C3 (amended): for a `ColumnSumConstraint` over `addends ++ [tv]` whose
target variable `tv` does not also occur among the addends (the shape every
generated column constraint has), `satisfied` behaves exactly as claimed:
`true` whenever the target is unassigned; with the target assigned to `t`,
`false` exactly when all addends are assigned and their sum differs from
`t`, or the sum of the assigned addends strictly exceeds `t`.
-/
theorem colSum_satisfied_characterization (addends : List Var) (tv : Var)
    (a : Assignment) (h : tv ∉ addends) :
    (lookupA a tv = none → colSumSatisfied (addends ++ [tv]) a = true) ∧
    (∀ t, lookupA a tv = some t →
      (colSumSatisfied (addends ++ [tv]) a = false ↔
        ((addends.filterMap (lookupA a)).length = addends.length ∧
          (addends.filterMap (lookupA a)).sum ≠ t) ∨
        (addends.filterMap (lookupA a)).sum > t)) := by
  have hlast : (addends ++ [tv]).getLast? = some tv := List.getLast?_concat _
  have hdrop : (addends ++ [tv]).dropLast = addends := by simp
  constructor
  · intro hnone
    simp [colSumSatisfied, hlast, hnone]
  · intro t ht
    rw [colSum_code_vs_claim_shape addends tv a h]
    have hcv : colSumClaimViolated (addends ++ [tv]) a =
        decide ((((addends.filterMap (lookupA a)).length = addends.length ∧
          (addends.filterMap (lookupA a)).sum ≠ t) ∨
          (addends.filterMap (lookupA a)).sum > t)) := by
      simp only [colSumClaimViolated, hlast, ht, hdrop]
    rw [hcv]
    by_cases hp : (((addends.filterMap (lookupA a)).length = addends.length ∧
        (addends.filterMap (lookupA a)).sum ≠ t) ∨
        (addends.filterMap (lookupA a)).sum > t)
    · exact iff_of_true (by rw [decide_eq_true hp]; rfl) hp
    · exact iff_of_false (fun hc => by rw [decide_eq_false hp] at hc; simp at hc) hp

/--
C3 witness: the claim's own examples, via the characterization. Target
variable `9`; addends `[0, 1]` assigned `4, 6` with target `10` is
satisfied, `4, 7` is not; a single assigned addend `11` violates target
`10`; and an unassigned target is always satisfied.
-/
theorem colSum_satisfied_characterization_witness :
    (9 : Var) ∉ ([0, 1] : List Var) ∧
    colSumSatisfied [0, 1, 9] [(0, 4), (1, 6), (9, 10)] = true ∧
    colSumSatisfied [0, 1, 9] [(0, 4), (1, 7), (9, 10)] = false ∧
    colSumSatisfied [0, 1, 9] [(0, 4)] = true ∧
    colSumSatisfied [0, 1, 9] [(0, 11), (9, 10)] = false := by
  refine ⟨by decide, by decide, ?_, ?_, ?_⟩
  · exact ((colSum_satisfied_characterization [0, 1] 9 [(0, 4), (1, 7), (9, 10)]
      (by decide)).2 10 (by decide)).mpr (by decide)
  · exact (colSum_satisfied_characterization [0, 1] 9 [(0, 4)]
      (by decide)).1 (by decide)
  · exact ((colSum_satisfied_characterization [0, 1] 9 [(0, 11), (9, 10)]
      (by decide)).2 10 (by decide)).mpr (by decide)

/- ### The MRV reduce (C5, C6) -/

/-- The MRV fold returns an element of `acc :: l`. -/
theorem mrvFold_mem (d : DomMap) (l : List Var) (acc : Var) :
    l.foldl (fun x y => if (d x).length < (d y).length then x else y) acc ∈
      acc :: l := by
  induction l generalizing acc with
  | nil => simp
  | cons b rest ih =>
    simp only [List.foldl_cons]
    rcases List.mem_cons.mp (ih (if (d acc).length < (d b).length then acc else b))
      with h | h
    · rw [h]
      by_cases hc : (d acc).length < (d b).length
      · simp [hc]
      · simp [hc]
    · exact List.mem_cons_of_mem _ (List.mem_cons_of_mem _ h)

/-- The MRV fold result has minimal domain size among `acc :: l`. -/
theorem mrvFold_min (d : DomMap) (l : List Var) (acc : Var) :
    ∀ u ∈ acc :: l,
      (d (l.foldl (fun x y => if (d x).length < (d y).length then x else y) acc)).length ≤
        (d u).length := by
  induction l generalizing acc with
  | nil =>
    intro u hu
    have : u = acc := by simpa using hu
    rw [this]
    simp
  | cons b rest ih =>
    intro u hu
    have hstep : (d (if (d acc).length < (d b).length then acc else b)).length ≤
        (d acc).length ∧
        (d (if (d acc).length < (d b).length then acc else b)).length ≤
        (d b).length := by
      by_cases hc : (d acc).length < (d b).length
      · simp [hc]; omega
      · simp [hc]; omega
    rcases List.mem_cons.mp hu with h | h
    · rw [h]
      calc (d (rest.foldl _ _)).length ≤ _ :=
            ih _ _ (List.mem_cons_self _ _)
        _ ≤ (d acc).length := hstep.1
    · rcases List.mem_cons.mp h with h2 | h2
      · rw [h2]
        calc (d (rest.foldl _ _)).length ≤ _ :=
              ih _ _ (List.mem_cons_self _ _)
          _ ≤ (d b).length := hstep.2
      · exact ih _ u (List.mem_cons_of_mem _ h2)

/-- Ties in the MRV fold go to the last minimum: the fold result is the
last element of `acc :: l` whose domain size equals the minimum. -/
theorem mrvFold_last_tie (d : DomMap) (l : List Var) (acc : Var) :
    ((acc :: l).filter (fun u =>
        (d u).length =
          (d (l.foldl (fun x y => if (d x).length < (d y).length then x else y)
            acc)).length)).getLast? =
      some (l.foldl (fun x y => if (d x).length < (d y).length then x else y)
        acc) := by
  induction l generalizing acc with
  | nil => simp
  | cons b rest ih =>
    simp only [List.foldl_cons]
    by_cases hc : (d acc).length < (d b).length
    · simp only [if_pos hc]
      have hmin : (d (rest.foldl (fun x y =>
          if (d x).length < (d y).length then x else y) acc)).length ≤
          (d acc).length :=
        mrvFold_min d rest acc acc (List.mem_cons_self _ _)
      have hb : ¬ ((d b).length = (d (rest.foldl (fun x y =>
          if (d x).length < (d y).length then x else y) acc)).length) := by
        omega
      have := ih acc
      simp only [List.filter_cons] at this ⊢
      simp only [decide_eq_true_eq]
      rw [if_neg hb]
      simpa using this
    · simp only [if_neg hc]
      have hble : (d b).length ≤ (d acc).length := by omega
      have hmin : (d (rest.foldl (fun x y =>
          if (d x).length < (d y).length then x else y) b)).length ≤
          (d b).length :=
        mrvFold_min d rest b b (List.mem_cons_self _ _)
      have := ih b
      by_cases hacc : (d acc).length = (d (rest.foldl (fun x y =>
          if (d x).length < (d y).length then x else y) b)).length
      · have hbeq : (d b).length = (d (rest.foldl (fun x y =>
            if (d x).length < (d y).length then x else y) b)).length := by
          omega
        simp only [List.filter_cons, decide_eq_true_eq] at this ⊢
        rw [if_pos hacc, if_pos hbeq]
        rw [if_pos hbeq] at this
        rw [List.getLast?_cons_cons]
        exact this
      · simp only [List.filter_cons, decide_eq_true_eq] at this ⊢
        rw [if_neg hacc]
        exact this

/--
C6 counterexample: in a model whose two variables `7` and `8` have
equal-size domains, `mrv [7, 8]` returns `8`, the *last*-encountered
minimum, while the claim ("first-encountered minimum wins", captured by
`firstMinVar`) demands `7`.
-/
theorem mrv_claim_counterexample :
    (cspTie.domains 7).length = (cspTie.domains 8).length ∧
    firstMinVar cspTie.domains [7, 8] = some 7 ∧
    mrv cspTie [7, 8] = 8 := by decide

/--
C6 (amended): for every non-empty list of variables, `mrv` returns a
variable whose `this.domains` size is minimal among them, and when several
variables tie for the minimal size the *last*-encountered one in the left
fold wins (the fold keeps the accumulator only when it is strictly
smaller); in particular, for domain sizes `[3, 1, 2]` the size-1 variable
is selected.
-/
theorem mrv_min_last_tie (csp : CSP) (l : List Var) (h : l ≠ []) :
    (∀ u ∈ l, (csp.domains (mrv csp l)).length ≤ (csp.domains u).length) ∧
    (l.filter (fun u =>
        (csp.domains u).length = (csp.domains (mrv csp l)).length)).getLast? =
      some (mrv csp l) := by
  match l with
  | [] => exact absurd rfl h
  | v :: rest =>
    refine ⟨?_, ?_⟩
    · intro u hu
      exact mrvFold_min csp.domains rest v u hu
    · exact mrvFold_last_tie csp.domains rest v

/--
C6 witness: in a model with domain sizes `[3, 1, 2]` on variables
`[0, 1, 2]`, `mrv` selects the size-1 variable `1`, it is minimal, and it
is the (unique, hence last) minimum of the filter.
-/
theorem mrv_min_last_tie_witness :
    ([0, 1, 2] : List Var) ≠ [] ∧
    ((∀ u ∈ ([0, 1, 2] : List Var),
        (cspSizes312.domains (mrv cspSizes312 [0, 1, 2])).length ≤
          (cspSizes312.domains u).length) ∧
      (([0, 1, 2] : List Var).filter (fun u =>
          (cspSizes312.domains u).length =
            (cspSizes312.domains (mrv cspSizes312 [0, 1, 2])).length)).getLast? =
        some (mrv cspSizes312 [0, 1, 2])) ∧
    mrv cspSizes312 [0, 1, 2] = 1 := by
  refine ⟨by decide, mrv_min_last_tie cspSizes312 [0, 1, 2] (by decide), by decide⟩

/- ### MRV branching inside the forward-checking search (C5) -/

/--
C5 counterexample: a reachable recursion node of
`forwardCheckingSearchWithMRV` on `csp5` where the branching variable does
*not* minimize the locally pruned domains. After binding `0 ↦ 5`,
`forwardChecking` prunes the target's local domain to `[6]` (size 1) while
variable `1` keeps local size 2; `mrv` nevertheless selects variable `1`
because it only consults the model's original domain sizes (2 vs 3).
-/
theorem fcsMRV_local_domain_claim_counterexample :
    FCMRVReaches csp5 [(0, 5)]
      (forwardChecking csp5 0 [(0, 5)] csp5.domains).2.2 ∧
    sizeA [(0, 5)] ≠ csp5.vars.length ∧
    (2 : Var) ∈ csp5.vars.filter (fun v => !(isBound [(0, 5)] v)) ∧
    ¬ (((forwardChecking csp5 0 [(0, 5)] csp5.domains).2.2
          (mrv csp5 (csp5.vars.filter (fun v => !(isBound [(0, 5)] v))))).length ≤
        ((forwardChecking csp5 0 [(0, 5)] csp5.domains).2.2 2).length) := by
  refine ⟨?_, by decide, by decide, by decide⟩
  have h1 : (forwardChecking csp5 0 [(0, 5)] csp5.domains).1 = true := by decide
  have h2 : (forwardChecking csp5 0 [(0, 5)] csp5.domains).2.1 = [(0, 5)] := by
    decide
  have hfc : forwardChecking csp5 0 (insertA [] 0 5) csp5.domains =
      (true, [(0, 5)], (forwardChecking csp5 0 [(0, 5)] csp5.domains).2.2) := by
    show forwardChecking csp5 0 [(0, 5)] csp5.domains = _
    exact Prod.ext h1 (Prod.ext h2 rfl)
  exact FCMRVReaches.step (FCMRVReaches.init []) (by decide) (by decide)
    (by decide) (by decide) (by decide) hfc

/--
C5 (amended): at every recursion node of `forwardCheckingSearchWithMRV`,
the variable chosen for branching has the fewest remaining candidate
values in the *Model's original* domain mapping (`this.domains`) among the
unassigned variables — the locally pruned domain copy threaded through the
recursion is not consulted by `mrv`.
-/
theorem fcsMRV_branch_var_min_original_domains (csp : CSP) (a : Assignment)
    (d : DomMap) (_hr : FCMRVReaches csp a d)
    (_hsz : sizeA a ≠ csp.vars.length) (u : Var)
    (hu : u ∈ csp.vars.filter (fun v => !(isBound a v))) :
    (csp.domains (mrv csp (csp.vars.filter (fun v => !(isBound a v))))).length ≤
      (csp.domains u).length := by
  match hl : csp.vars.filter (fun v => !(isBound a v)) with
  | [] => rw [hl] at hu; exact absurd hu (List.not_mem_nil u)
  | v :: rest =>
    rw [hl] at hu
    exact (mrv_min_last_tie csp (v :: rest) (by simp)).1 u hu

/--
C5 witness: the amended theorem applied at the entry node of the search on
`csp5` (reached via `FCMRVReaches.init`), for unassigned variable `2`.
-/
theorem fcsMRV_branch_var_min_original_domains_witness :
    sizeA ([] : Assignment) ≠ csp5.vars.length ∧
    (2 : Var) ∈ csp5.vars.filter (fun v => !(isBound [] v)) ∧
    (csp5.domains (mrv csp5 (csp5.vars.filter (fun v => !(isBound [] v))))).length ≤
      (csp5.domains 2).length :=
  ⟨by decide, by decide,
    fcsMRV_branch_var_min_original_domains csp5 [] csp5.domains
      (FCMRVReaches.init []) (by decide) 2 (by decide)⟩

/- ### Forward checking retracts its tentative bindings (C8) -/

/-- The value loop of `forwardChecking` leaves the assignment exactly as it
found it: the tentative binding of the (unassigned) neighbor is retracted
on every path. -/
theorem fcVals_assignment_restored (csp : CSP) (nb : Var) (vals : List Int)
    (a : Assignment) (d : DomMap) (hnb : lookupA a nb = none) :
    (fcVals csp nb vals a d).2.1 = a := by
  induction vals generalizing d with
  | nil => rfl
  | cons x rest ih =>
    simp only [fcVals]
    rw [removeA_insertA_fresh a nb x hnb]
    by_cases hc : consistent csp nb (insertA a nb x) = true
    · simp only [hc, if_true]
      exact ih d
    · simp only [Bool.not_eq_true] at hc
      simp only [hc, Bool.false_eq_true, if_false]
      by_cases hlen : ((updateD d nb ((d nb).filter (fun y => y != x))) nb).length = 0
      · simp [hlen]
      · simp only [hlen, if_false]
        exact ih _

/-- The neighbor loop of `forwardChecking` preserves the assignment. -/
theorem fcNeighbors_assignment_restored (csp : CSP) (nbs : List Var)
    (a : Assignment) (d : DomMap) :
    (fcNeighbors csp nbs a d).2.1 = a := by
  induction nbs generalizing a d with
  | nil => rfl
  | cons nb rest ih =>
    simp only [fcNeighbors]
    by_cases hb : isBound a nb = true
    · simp only [hb, if_true]
      exact ih a d
    · simp only [Bool.not_eq_true] at hb
      simp only [hb, Bool.false_eq_true, if_false]
      have hnone : lookupA a nb = none := by
        simp only [isBound] at hb
        exact Option.not_isSome_iff_eq_none.mp (by simp [hb])
      have hfv := fcVals_assignment_restored csp nb (d nb) a d hnone
      rcases hres : fcVals csp nb (d nb) a d with ⟨ok, a1, d1⟩
      rw [hres] at hfv
      simp only at hfv
      cases ok
      · simpa using hfv
      · simp only
        rw [hfv]
        exact ih a d1

/-- The constraint loop of `forwardChecking` preserves the assignment. -/
theorem fcConstraints_assignment_restored (csp : CSP) (justBound : Var)
    (cs : List Constraint) (a : Assignment) (d : DomMap) :
    (fcConstraints csp justBound cs a d).2.1 = a := by
  induction cs generalizing a d with
  | nil => rfl
  | cons c rest ih =>
    simp only [fcConstraints]
    by_cases ht : fcTriggers c justBound = true
    · simp only [ht, if_true]
      have hfn := fcNeighbors_assignment_restored csp c.varsOf a d
      rcases hres : fcNeighbors csp c.varsOf a d with ⟨ok, a1, d1⟩
      rw [hres] at hfn
      simp only at hfn
      cases ok
      · simpa using hfn
      · simp only
        rw [hfn]
        exact ih a d1
    · simp only [Bool.not_eq_true] at ht
      simp only [ht, Bool.false_eq_true, if_false]
      exact ih a d

/--
C8: whenever `forwardChecking(variable, assignment, domains)` returns —
reporting success or failure — the assignment object contains exactly the
variable-to-value bindings it contained at entry: every tentative neighbor
binding made during the lookahead checks has been retracted.
-/
theorem forwardChecking_assignment_restored (csp : CSP) (justBound : Var)
    (a : Assignment) (d : DomMap) :
    (forwardChecking csp justBound a d).2.1 = a :=
  fcConstraints_assignment_restored csp justBound
    (csp.constraints justBound) a d

/- ### The seeder's retry restores the domain snapshot (C9) -/

/--
C9: whenever the internal `forwardCheckingSearchWithMRV` call of
`randomInitialState` returns null, the model's domain mapping is restored
to `savedDomains` — the snapshot taken after the pre-fill but before the
narrowing — so the retry runs from exactly the domains `d` the attempt
started from: the failed attempt's narrowing does not persist.
-/
theorem randomInitialState_retry_restores_domains (csp : CSP)
    (isTarget : Var → Bool) (orc : Orc) (sfuel fuel : Nat) (d : DomMap)
    (r : Nat)
    (hfail : forwardCheckingSearchWithMRV
      { csp with domains :=
          narrowDomains d (prefill csp isTarget orc r) csp.vars }
      sfuel (prefill csp isTarget orc r)
      (narrowDomains d (prefill csp isTarget orc r) csp.vars) = none) :
    randomInitialState csp isTarget orc sfuel (fuel + 1) d r =
      randomInitialState csp isTarget orc sfuel fuel d (r + 1) := by
  simp only [randomInitialState, hfail]

/--
C9 witness: on a model whose single variable has an empty domain the
internal search always fails, and the retry unrolling applies with the
original domains.
-/
theorem randomInitialState_retry_restores_domains_witness :
    forwardCheckingSearchWithMRV
      { csp9 with domains :=
          (narrowDomains csp9.domains (prefill csp9 (fun _ => false) orcNone 0)
            csp9.vars) }
      2 (prefill csp9 (fun _ => false) orcNone 0)
      (narrowDomains csp9.domains (prefill csp9 (fun _ => false) orcNone 0)
        csp9.vars) = none ∧
    randomInitialState csp9 (fun _ => false) orcNone 2 1 csp9.domains 0 =
      randomInitialState csp9 (fun _ => false) orcNone 2 0 csp9.domains 1 := by
  refine ⟨?_, ?_⟩
  · decide
  · exact randomInitialState_retry_restores_domains csp9 (fun _ => false)
      orcNone 2 0 csp9.domains 0 (by decide)

/- ### `addConstraint` is not atomic on error (C10) -/

/-- The `addConstraint` loop over a variable list `pre ++ bad :: rest` with
every element of `pre` in the CSP and `bad` absent: it throws, and the
index keeps one pushed copy of the constraint per occurrence in `pre`. -/
theorem addConstraintLoop_partial (vs : List Var) (c : Constraint)
    (bad : Var) (rest : List Var) (hbad : bad ∉ vs) :
    ∀ (pre : List Var) (idx : Var → List Constraint), (∀ v ∈ pre, v ∈ vs) →
      (addConstraintLoop vs c idx (pre ++ bad :: rest)).1 = true ∧
      ∀ v, (addConstraintLoop vs c idx (pre ++ bad :: rest)).2 v =
        idx v ++ List.replicate (pre.count v) c := by
  intro pre
  induction pre with
  | nil =>
    intro idx _
    constructor
    · simp [addConstraintLoop, hbad]
    · intro v
      simp [addConstraintLoop, hbad]
  | cons w pre2 ih =>
    intro idx hpre
    have hw : w ∈ vs := hpre w (List.mem_cons_self _ _)
    have hstep : addConstraintLoop vs c idx ((w :: pre2) ++ bad :: rest) =
        addConstraintLoop vs c (fun u => if u = w then idx u ++ [c] else idx u)
          (pre2 ++ bad :: rest) := by
      rw [List.cons_append]
      simp only [addConstraintLoop, if_pos hw]
    rw [hstep]
    have hpre2 : ∀ v ∈ pre2, v ∈ vs :=
      fun v hv => hpre v (List.mem_cons_of_mem _ hv)
    obtain ⟨hthrew, hidx⟩ :=
      ih (fun u => if u = w then idx u ++ [c] else idx u) hpre2
    refine ⟨hthrew, fun v => ?_⟩
    rw [hidx v]
    by_cases hvw : v = w
    · subst hvw
      rw [if_pos rfl, List.count_cons_self, List.append_assoc]
      simp [List.replicate_succ]
    · rw [if_neg hvw, List.count_cons_of_ne hvw]

/--
C10: `addConstraint` is not atomic on error. If the constraint's variable
list splits as `pre ++ bad :: rest` with every variable of `pre` in the
CSP and `bad` absent (so `bad` is the first absent variable), the call
throws, yet the constraint has already been pushed onto the per-variable
lists of every variable in `pre` (once per occurrence), and these partial
registrations are not rolled back.
-/
theorem addConstraint_partial_registration (vs : List Var) (c : Constraint)
    (idx : Var → List Constraint) (pre : List Var) (bad : Var)
    (rest : List Var) (hsplit : c.varsOf = pre ++ bad :: rest)
    (hpre : ∀ v ∈ pre, v ∈ vs) (hbad : bad ∉ vs) :
    (addConstraint vs c idx).1 = true ∧
    ∀ v, (addConstraint vs c idx).2 v =
      idx v ++ List.replicate (pre.count v) c := by
  unfold addConstraint
  rw [hsplit]
  exact addConstraintLoop_partial vs c bad rest hbad pre idx hpre

/--
C10 witness: registering `AllDifferent([0, 5, 1])` on a model with
variables `[0, 1]` throws at `5`, but variable `0`'s constraint list has
already received the constraint and keeps it.
-/
theorem addConstraint_partial_registration_witness :
    (Constraint.allDiff [0, 5, 1]).varsOf = [0] ++ 5 :: [1] ∧
    (∀ v ∈ ([0] : List Var), v ∈ ([0, 1] : List Var)) ∧
    (5 : Var) ∉ ([0, 1] : List Var) ∧
    ((addConstraint [0, 1] (Constraint.allDiff [0, 5, 1]) (fun _ => [])).1 =
        true ∧
      ∀ v, (addConstraint [0, 1] (Constraint.allDiff [0, 5, 1])
          (fun _ => [])).2 v =
        (fun _ => ([] : List Constraint)) v ++
          List.replicate (([0] : List Var).count v)
            (Constraint.allDiff [0, 5, 1])) :=
  ⟨by decide, by decide, by decide,
    addConstraint_partial_registration [0, 1] (Constraint.allDiff [0, 5, 1])
      (fun _ => []) [0] 5 [1] (by decide) (by decide) (by decide)⟩

/- ### Heap cell lemmas -/

theorem dGet_append_lt (h : Heap) (d : DomMap) (r : Nat) (hr : r < h.length) :
    dGet (h ++ [d]) r = dGet h r := by
  simp only [dGet]
  rw [List.getD_append _ _ _ _ hr]

theorem dGet_set_self (h : Heap) (r : Nat) (d : DomMap) (hr : r < h.length) :
    dGet (hSet h r d) r = d := by
  simp [dGet, hSet, List.getD, List.getElem?_set_self, hr]

theorem dGet_set_ne (h : Heap) (r r2 : Nat) (d : DomMap) (hne : r2 ≠ r) :
    dGet (hSet h r d) r2 = dGet h r2 := by
  simp [dGet, hSet, List.getD, List.getElem?_set_ne hne.symm]

/- ### The heap-threaded value loop only writes freshly allocated cells and
computes the same result as the pure loop on the referenced cell value -/

theorem fcsHLoop_spec (csp : CSP) (first : Var) (mref : Nat) (dm : DomMap)
    (rec : Assignment → Nat → Heap → Option Assignment × Heap)
    (recP : Assignment → DomMap → Option Assignment)
    (hrec : ∀ a2 dref2 h2, dref2 < h2.length → mref < h2.length →
      dGet h2 mref = dm →
      h2.length ≤ (rec a2 dref2 h2).2.length ∧
      (∀ r, r < h2.length → dGet (rec a2 dref2 h2).2 r = dGet h2 r) ∧
      (rec a2 dref2 h2).1 = recP a2 (dGet h2 dref2)) :
    ∀ (vals : List Int) (a : Assignment) (h : Heap) (dref : Nat),
      dref < h.length → mref < h.length → dGet h mref = dm →
      h.length ≤ (fcsHLoop csp first rec a dref vals h).2.length ∧
      (∀ r, r < h.length →
        dGet (fcsHLoop csp first rec a dref vals h).2 r = dGet h r) ∧
      (fcsHLoop csp first rec a dref vals h).1 =
        firstSome (fun y =>
          if consistent csp first (insertA a first y) then
            match forwardChecking csp first (insertA a first y)
                (dGet h dref) with
            | (true, a2, d2) => recP a2 d2
            | (false, _, _) => none
          else none) vals := by
  intro vals
  induction vals with
  | nil =>
    intro a h dref _ _ _
    exact ⟨le_refl _, fun r _ => rfl, rfl⟩
  | cons x rest ih =>
    intro a h dref hdref hmref hdm
    by_cases hc : consistent csp first (insertA a first x) = true
    · rcases hfc : forwardChecking csp first (insertA a first x) (dGet h dref)
        with ⟨ok, a2, d2⟩
      have hlen2 : (hSet (h ++ [dGet h dref]) h.length d2).length =
          h.length + 1 := by simp [hSet]
      have hpres2 : ∀ r, r < h.length →
          dGet (hSet (h ++ [dGet h dref]) h.length d2) r = dGet h r := by
        intro r hr
        rw [dGet_set_ne _ _ _ _ (Nat.ne_of_lt hr), dGet_append_lt _ _ _ hr]
      have hdm2 : dGet (hSet (h ++ [dGet h dref]) h.length d2) mref = dm := by
        rw [hpres2 mref hmref]; exact hdm
      cases ok with
      | true =>
        have hloc : dGet (hSet (h ++ [dGet h dref]) h.length d2) h.length =
            d2 := dGet_set_self _ _ _ (by simp)
        obtain ⟨hg, hp, hb⟩ := hrec a2 h.length
          (hSet (h ++ [dGet h dref]) h.length d2)
          (by rw [hlen2]; omega) (by rw [hlen2]; omega) hdm2
        rw [hloc] at hb
        rw [hlen2] at hg hp
        have hp3 : ∀ r, r < h.length →
            dGet (rec a2 h.length
              (hSet (h ++ [dGet h dref]) h.length d2)).2 r = dGet h r := by
          intro r hr
          rw [hp r (by omega), hpres2 r hr]
        cases hres : (rec a2 h.length
            (hSet (h ++ [dGet h dref]) h.length d2)).1 with
        | some r0 =>
          have hunfold : fcsHLoop csp first rec a dref (x :: rest) h =
              (some r0, (rec a2 h.length
                (hSet (h ++ [dGet h dref]) h.length d2)).2) := by
            simp only [fcsHLoop, hc, if_true, hfc, hres]
          have hfx : (if consistent csp first (insertA a first x) then
              match forwardChecking csp first (insertA a first x)
                  (dGet h dref) with
              | (true, a2, d2) => recP a2 d2
              | (false, _, _) => none
            else none) = some r0 := by
            rw [if_pos hc, hfc]
            show recP a2 d2 = some r0
            rw [← hb]
            exact hres
          have hpure2 : firstSome (fun y =>
          if consistent csp first (insertA a first y) then
            match forwardChecking csp first (insertA a first y)
                (dGet h dref) with
            | (true, a2, d2) => recP a2 d2
            | (false, _, _) => none
          else none) (x :: rest) = some r0 := by
            simp only [firstSome]
            rw [hfx]
          rw [hunfold, hpure2]
          exact ⟨(show h.length ≤ (rec a2 h.length
              (hSet (h ++ [dGet h dref]) h.length d2)).2.length by omega),
            fun r hr => hp3 r hr, rfl⟩
        | none =>
          have hunfold : fcsHLoop csp first rec a dref (x :: rest) h =
              fcsHLoop csp first rec a dref rest (rec a2 h.length
                (hSet (h ++ [dGet h dref]) h.length d2)).2 := by
            simp only [fcsHLoop, hc, if_true, hfc, hres]
          have hfx : (if consistent csp first (insertA a first x) then
              match forwardChecking csp first (insertA a first x)
                  (dGet h dref) with
              | (true, a2, d2) => recP a2 d2
              | (false, _, _) => none
            else none) = none := by
            rw [if_pos hc, hfc]
            show recP a2 d2 = none
            rw [← hb]
            exact hres
          have hpure2 : firstSome (fun y =>
          if consistent csp first (insertA a first y) then
            match forwardChecking csp first (insertA a first y)
                (dGet h dref) with
            | (true, a2, d2) => recP a2 d2
            | (false, _, _) => none
          else none) (x :: rest) =
              firstSome (fun y =>
          if consistent csp first (insertA a first y) then
            match forwardChecking csp first (insertA a first y)
                (dGet h dref) with
            | (true, a2, d2) => recP a2 d2
            | (false, _, _) => none
          else none) rest := by
            simp only [firstSome]
            rw [hfx]
          obtain ⟨hg4, hp4, hb4⟩ := ih a (rec a2 h.length
              (hSet (h ++ [dGet h dref]) h.length d2)).2 dref
            (by omega) (by omega)
            (by rw [hp3 mref hmref]; exact hdm)
          rw [hunfold, hpure2]
          refine ⟨le_trans (show h.length ≤ (rec a2 h.length
              (hSet (h ++ [dGet h dref]) h.length d2)).2.length by omega) hg4,
            fun r hr => ?_, ?_⟩
          · rw [hp4 r (by omega), hp3 r hr]
          · rw [hb4]
            simp only [hp3 dref hdref]
      | false =>
        have hunfold : fcsHLoop csp first rec a dref (x :: rest) h =
            fcsHLoop csp first rec a dref rest
              (hSet (h ++ [dGet h dref]) h.length d2) := by
          simp only [fcsHLoop, hc, if_true, hfc, Bool.false_eq_true, if_false]
        have hfx : (if consistent csp first (insertA a first x) then
              match forwardChecking csp first (insertA a first x)
                  (dGet h dref) with
              | (true, a2, d2) => recP a2 d2
              | (false, _, _) => none
            else none) = none := by
          rw [if_pos hc, hfc]
        have hpure2 : firstSome (fun y =>
          if consistent csp first (insertA a first y) then
            match forwardChecking csp first (insertA a first y)
                (dGet h dref) with
            | (true, a2, d2) => recP a2 d2
            | (false, _, _) => none
          else none) (x :: rest) =
            firstSome (fun y =>
          if consistent csp first (insertA a first y) then
            match forwardChecking csp first (insertA a first y)
                (dGet h dref) with
            | (true, a2, d2) => recP a2 d2
            | (false, _, _) => none
          else none) rest := by
          simp only [firstSome]
          rw [hfx]
        obtain ⟨hg4, hp4, hb4⟩ := ih a (hSet (h ++ [dGet h dref]) h.length d2)
          dref (by rw [hlen2]; omega) (by rw [hlen2]; omega) hdm2
        rw [hlen2] at hg4
        rw [hunfold, hpure2]
        refine ⟨le_trans (by omega) hg4, fun r hr => ?_, ?_⟩
        · rw [hp4 r (by rw [hlen2]; omega), hpres2 r hr]
        · rw [hb4]
          simp only [hpres2 dref hdref]
    · have hc2 : consistent csp first (insertA a first x) = false :=
        Bool.eq_false_iff.mpr hc
      have hunfold : fcsHLoop csp first rec a dref (x :: rest) h =
          fcsHLoop csp first rec a dref rest h := by
        simp only [fcsHLoop, hc2, Bool.false_eq_true, if_false]
      have hfx : (if consistent csp first (insertA a first x) then
              match forwardChecking csp first (insertA a first x)
                  (dGet h dref) with
              | (true, a2, d2) => recP a2 d2
              | (false, _, _) => none
            else none) = none := by
        rw [if_neg hc]
      have hpure2 : firstSome (fun y =>
          if consistent csp first (insertA a first y) then
            match forwardChecking csp first (insertA a first y)
                (dGet h dref) with
            | (true, a2, d2) => recP a2 d2
            | (false, _, _) => none
          else none) (x :: rest) =
          firstSome (fun y =>
          if consistent csp first (insertA a first y) then
            match forwardChecking csp first (insertA a first y)
                (dGet h dref) with
            | (true, a2, d2) => recP a2 d2
            | (false, _, _) => none
          else none) rest := by
        simp only [firstSome]
        rw [hfx]
      rw [hunfold, hpure2]
      exact ih a h dref hdref hmref hdm

/-- The heap-threaded `forwardCheckingSearch` grows the heap, never changes
a pre-existing cell, and returns the pure search's result on the value of
the referenced domains object. -/
theorem fcsH_spec (csp : CSP) :
    ∀ (n : Nat) (a : Assignment) (dref : Nat) (h : Heap), dref < h.length →
      h.length ≤ (forwardCheckingSearchH csp n a dref h).2.length ∧
      (∀ r, r < h.length →
        dGet (forwardCheckingSearchH csp n a dref h).2 r = dGet h r) ∧
      (forwardCheckingSearchH csp n a dref h).1 =
        forwardCheckingSearch csp n a (dGet h dref) := by
  intro n
  induction n with
  | zero =>
    intro a dref h _
    exact ⟨le_refl _, fun r _ => rfl, rfl⟩
  | succ n ih =>
    intro a dref h hdref
    by_cases hsz : sizeA a = csp.vars.length
    · have hH : forwardCheckingSearchH csp (n + 1) a dref h = (some a, h) := by
        simp only [forwardCheckingSearchH, if_pos hsz]
      have hP : forwardCheckingSearch csp (n + 1) a (dGet h dref) = some a := by
        simp only [forwardCheckingSearch, if_pos hsz]
      rw [hH, hP]
      exact ⟨le_refl _, fun r _ => rfl, rfl⟩
    · cases hfil : csp.vars.filter (fun v => !(isBound a v)) with
      | nil =>
        have hH : forwardCheckingSearchH csp (n + 1) a dref h = (none, h) := by
          simp only [forwardCheckingSearchH, if_neg hsz, hfil]
        have hP : forwardCheckingSearch csp (n + 1) a (dGet h dref) = none := by
          simp only [forwardCheckingSearch, if_neg hsz, hfil]
        rw [hH, hP]
        exact ⟨le_refl _, fun r _ => rfl, rfl⟩
      | cons first rest2 =>
        have hspec := fcsHLoop_spec csp first dref (dGet h dref)
          (forwardCheckingSearchH csp n) (forwardCheckingSearch csp n)
          (fun a2 dref2 h2 hh _ _ => ih a2 dref2 h2 hh)
          ((dGet h dref) first) a h dref hdref hdref rfl
        have hH : forwardCheckingSearchH csp (n + 1) a dref h =
            fcsHLoop csp first (forwardCheckingSearchH csp n) a dref
              ((dGet h dref) first) h := by
          simp only [forwardCheckingSearchH, if_neg hsz, hfil]
        have hP : forwardCheckingSearch csp (n + 1) a (dGet h dref) =
            firstSome (fun y =>
              if consistent csp first (insertA a first y) then
                match forwardChecking csp first (insertA a first y)
                    (dGet h dref) with
                | (true, a2, d2) => forwardCheckingSearch csp n a2 d2
                | (false, _, _) => none
              else none) ((dGet h dref) first) := by
          simp only [forwardCheckingSearch, if_neg hsz, hfil]
        rw [hH, hP]
        exact hspec

/-- The heap-threaded `forwardCheckingSearchWithMRV` (with `mref` the
reference held by `this.domains`): same frame and adequacy properties. -/
theorem fcsMRVH_spec (csp : CSP) (mref : Nat) :
    ∀ (n : Nat) (a : Assignment) (dref : Nat) (h : Heap), dref < h.length →
      mref < h.length → dGet h mref = csp.domains →
      h.length ≤ (forwardCheckingSearchWithMRVH csp mref n a dref h).2.length ∧
      (∀ r, r < h.length →
        dGet (forwardCheckingSearchWithMRVH csp mref n a dref h).2 r =
          dGet h r) ∧
      (forwardCheckingSearchWithMRVH csp mref n a dref h).1 =
        forwardCheckingSearchWithMRV csp n a (dGet h dref) := by
  intro n
  induction n with
  | zero =>
    intro a dref h _ _ _
    exact ⟨le_refl _, fun r _ => rfl, rfl⟩
  | succ n ih =>
    intro a dref h hdref hmref hdm
    by_cases hsz : sizeA a = csp.vars.length
    · have hH : forwardCheckingSearchWithMRVH csp mref (n + 1) a dref h =
          (some a, h) := by
        simp only [forwardCheckingSearchWithMRVH, if_pos hsz]
      have hP : forwardCheckingSearchWithMRV csp (n + 1) a (dGet h dref) =
          some a := by
        simp only [forwardCheckingSearchWithMRV, if_pos hsz]
      rw [hH, hP]
      exact ⟨le_refl _, fun r _ => rfl, rfl⟩
    · cases hfil : csp.vars.filter (fun v => !(isBound a v)) with
      | nil =>
        have hH : forwardCheckingSearchWithMRVH csp mref (n + 1) a dref h =
            (none, h) := by
          simp only [forwardCheckingSearchWithMRVH, if_neg hsz, hfil]
        have hP : forwardCheckingSearchWithMRV csp (n + 1) a (dGet h dref) =
            none := by
          simp only [forwardCheckingSearchWithMRV, if_neg hsz, hfil]
        rw [hH, hP]
        exact ⟨le_refl _, fun r _ => rfl, rfl⟩
      | cons v rest2 =>
        have hspec := fcsHLoop_spec csp (mrv csp (v :: rest2)) mref
          csp.domains
          (forwardCheckingSearchWithMRVH csp mref n)
          (forwardCheckingSearchWithMRV csp n)
          (fun a2 dref2 h2 hh hm hd => ih a2 dref2 h2 hh hm hd)
          ((dGet h dref) (mrv csp (v :: rest2))) a h dref hdref hmref hdm
        have hH : forwardCheckingSearchWithMRVH csp mref (n + 1) a dref h =
            fcsHLoop csp (mrv csp (v :: rest2))
              (forwardCheckingSearchWithMRVH csp mref n) a dref
              ((dGet h dref) (mrv csp (v :: rest2))) h := by
          simp only [forwardCheckingSearchWithMRVH, if_neg hsz, hfil, hdm, mrv]
        have hP : forwardCheckingSearchWithMRV csp (n + 1) a (dGet h dref) =
            firstSome (fun y =>
              if consistent csp (mrv csp (v :: rest2))
                  (insertA a (mrv csp (v :: rest2)) y) then
                match forwardChecking csp (mrv csp (v :: rest2))
                    (insertA a (mrv csp (v :: rest2)) y) (dGet h dref) with
                | (true, a2, d2) => forwardCheckingSearchWithMRV csp n a2 d2
                | (false, _, _) => none
              else none) ((dGet h dref) (mrv csp (v :: rest2))) := by
          simp only [forwardCheckingSearchWithMRV, if_neg hsz, hfil, mrv]
        rw [hH, hP]
        exact hspec

/--
C7: the Model's persistent domain mapping is unchanged by an invocation of
a search strategy. The two forward-checking strategies, rendered against
the heap of domain objects with `this.domains` held at reference `dref`,
leave every pre-existing heap cell — in particular the model's own domains
object — exactly as it was: they narrow only the locally allocated copies.
(Plain backtracking and MRV-backtracking read `this.domains` but thread no
domain state at all — their embeddings take the domain map as a read-only
value — so only the forward-checking variants have a frame condition to
prove.)
-/
theorem searches_preserve_model_domains (csp : CSP) (n : Nat)
    (a : Assignment) (dref : Nat) (h : Heap) (hdref : dref < h.length)
    (hdm : dGet h dref = csp.domains) :
    (∀ r, r < h.length →
      dGet (forwardCheckingSearchH csp n a dref h).2 r = dGet h r) ∧
    (∀ r, r < h.length →
      dGet (forwardCheckingSearchWithMRVH csp dref n a dref h).2 r =
        dGet h r) :=
  ⟨(fcsH_spec csp n a dref h hdref).2.1,
    (fcsMRVH_spec csp dref n a dref h hdref hdref hdm).2.1⟩

/--
C7 witness: both forward-checking searches run to completion on `csp5`
(where forward checking does prune local copies) with the model's domains
object as the single pre-existing heap cell; that cell is untouched.
-/
theorem searches_preserve_model_domains_witness :
    (0 : Nat) < ([csp5.domains] : Heap).length ∧
    dGet [csp5.domains] 0 = csp5.domains ∧
    ((∀ r, r < ([csp5.domains] : Heap).length →
      dGet (forwardCheckingSearchH csp5 4 [] 0 [csp5.domains]).2 r =
        dGet [csp5.domains] r) ∧
    (∀ r, r < ([csp5.domains] : Heap).length →
      dGet (forwardCheckingSearchWithMRVH csp5 0 4 [] 0 [csp5.domains]).2 r =
        dGet [csp5.domains] r)) :=
  ⟨by decide, rfl,
    searches_preserve_model_domains csp5 4 [] 0 [csp5.domains] (by decide) rfl⟩

/- ### Generic helpers for the search soundness arguments -/

theorem firstSome_some (f : α → Option β) (l : List α) (b : β)
    (h : firstSome f l = some b) : ∃ x ∈ l, f x = some b := by
  induction l with
  | nil => simp [firstSome] at h
  | cons x rest ih =>
    simp only [firstSome] at h
    cases hfx : f x with
    | some r =>
      have h2 : (some r : Option β) = some b := by rw [hfx] at h; exact h
      exact ⟨x, List.mem_cons_self _ _, by rw [hfx]; exact h2⟩
    | none =>
      have h2 : firstSome f rest = some b := by rw [hfx] at h; exact h
      obtain ⟨y, hy, hfy⟩ := ih h2
      exact ⟨y, List.mem_cons_of_mem _ hy, hfy⟩

theorem all_congr_mem {l : List α} {f g : α → Bool}
    (h : ∀ x ∈ l, f x = g x) : l.all f = l.all g := by
  induction l with
  | nil => rfl
  | cons x rest ih =>
    simp only [List.all_cons, h x (List.mem_cons_self _ _),
      ih (fun y hy => h y (List.mem_cons_of_mem _ hy))]

theorem sumCount_congr (tv : Var) (a b : Assignment) (l : List Var)
    (h : ∀ v ∈ l, lookupA a v = lookupA b v) :
    sumCount tv a l = sumCount tv b l := by
  induction l with
  | nil => rfl
  | cons v rest ih =>
    have hv := h v (List.mem_cons_self _ _)
    have hrest := ih (fun u hu => h u (List.mem_cons_of_mem _ hu))
    simp only [sumCount, hv, hrest]

/-- A constraint's `satisfied` only reads the assignment at the
constraint's own variables. -/
theorem satisfied_congr (c : Constraint) (a b : Assignment)
    (h : ∀ v ∈ c.varsOf, lookupA a v = lookupA b v) :
    c.satisfied a = c.satisfied b := by
  cases c with
  | allDiff vs =>
    simp only [Constraint.varsOf] at h
    simp only [Constraint.satisfied]
    cases vs with
    | nil => rfl
    | cons v0 rest =>
      simp only [allDiffSatisfied, List.head?_cons]
      apply all_congr_mem
      intro v hv
      rw [h v hv, h v0 (List.mem_cons_self _ _)]
  | colSum vs =>
    simp only [Constraint.varsOf] at h
    simp only [Constraint.satisfied]
    cases hlast : vs.getLast? with
    | none => simp [colSumSatisfied, hlast]
    | some tv =>
      have htv : tv ∈ vs := List.mem_of_mem_getLast? hlast
      have hsum : sumCount tv a vs = sumCount tv b vs := sumCount_congr tv a b vs h
      simp only [colSumSatisfied, hlast, h tv htv, hsum]

/-- One consistent bind preserves the invariant "every fully bound
registered constraint is satisfied". -/
theorem satInv_step (csp : CSP) (R : List Constraint)
    (hreg : Registered csp R) (a : Assignment) (first : Var) (x : Int)
    (hnone : lookupA a first = none)
    (hcons : consistent csp first (insertA a first x) = true)
    (hsat : ∀ c ∈ R, (∀ v ∈ c.varsOf, isBound a v = true) →
      c.satisfied a = true) :
    ∀ c ∈ R, (∀ v ∈ c.varsOf, isBound (insertA a first x) v = true) →
      c.satisfied (insertA a first x) = true := by
  intro c hcR hall
  by_cases hfc : first ∈ c.varsOf
  · have hcf : c ∈ csp.constraints first := (hreg c hcR first hfc).2
    simp only [consistent, List.all_eq_true] at hcons
    exact hcons c hcf
  · have hlook : ∀ v ∈ c.varsOf, lookupA (insertA a first x) v = lookupA a v := by
      intro v hv
      rw [lookupA_insertA_fresh a first x hnone v,
        if_neg (fun (hc : first = v) => hfc (hc ▸ hv))]
    rw [satisfied_congr c _ _ hlook]
    apply hsat c hcR
    intro v hv
    have hb := hall v hv
    simp only [isBound] at hb ⊢
    rw [← hlook v hv]
    exact hb

/-- The bound-key invariants are preserved by a fresh bind. -/
theorem keys_step (csp : CSP) (a : Assignment) (first : Var) (x : Int)
    (hnone : lookupA a first = none) (hnd : (keysA a).Nodup)
    (hmem : ∀ p ∈ a, p.1 ∈ csp.vars ∧ p.2 ∈ csp.domains p.1)
    (hfv : first ∈ csp.vars) (hxd : x ∈ csp.domains first) :
    (keysA (insertA a first x)).Nodup ∧
    (∀ p ∈ insertA a first x, p.1 ∈ csp.vars ∧ p.2 ∈ csp.domains p.1) := by
  constructor
  · rw [keysA_insertA_fresh a first x hnone]
    have hfk : first ∉ keysA a := by
      intro hc
      have := (isBound_iff_mem_keys a first).mpr hc
      simp [isBound, hnone] at this
    simp [List.nodup_append, hnd, hfk]
  · intro p hp
    rw [insertA_not_bound a first x hnone] at hp
    rcases List.mem_append.mp hp with hpa | hpx
    · exact hmem p hpa
    · have : p = (first, x) := by simpa using hpx
      rw [this]
      exact ⟨hfv, hxd⟩

/- ### Forward checking only removes domain values -/

theorem fcVals_domains_subset (csp : CSP) (nb : Var) (vals : List Int)
    (a : Assignment) (d : DomMap) :
    ∀ v y, y ∈ (fcVals csp nb vals a d).2.2 v → y ∈ d v := by
  induction vals generalizing a d with
  | nil => intro v y hy; exact hy
  | cons x rest ih =>
    intro v y hy
    simp only [fcVals] at hy
    by_cases hc : consistent csp nb (insertA a nb x) = true
    · rw [if_pos hc] at hy
      exact ih _ d v y hy
    · rw [if_neg hc] at hy
      have hsub : ∀ u z, z ∈ (updateD d nb ((d nb).filter (fun y => y != x))) u →
          z ∈ d u := by
        intro u z hz
        simp only [updateD] at hz
        by_cases hu : u = nb
        · rw [if_pos hu] at hz
          rw [hu]
          exact List.mem_of_mem_filter hz
        · rw [if_neg hu] at hz
          exact hz
      by_cases hlen : ((updateD d nb ((d nb).filter (fun y => y != x))) nb).length = 0
      · rw [if_pos hlen] at hy
        exact hsub v y hy
      · rw [if_neg hlen] at hy
        exact hsub v y (ih _ _ v y hy)

theorem fcNeighbors_domains_subset (csp : CSP) (nbs : List Var)
    (a : Assignment) (d : DomMap) :
    ∀ v y, y ∈ (fcNeighbors csp nbs a d).2.2 v → y ∈ d v := by
  induction nbs generalizing a d with
  | nil => intro v y hy; exact hy
  | cons nb rest ih =>
    intro v y hy
    simp only [fcNeighbors] at hy
    by_cases hb : isBound a nb = true
    · rw [if_pos hb] at hy
      exact ih a d v y hy
    · rw [if_neg hb] at hy
      rcases hres : fcVals csp nb (d nb) a d with ⟨ok, a1, d1⟩
      rw [hres] at hy
      have hd1 : ∀ u z, z ∈ d1 u → z ∈ d u := by
        intro u z hz
        have := fcVals_domains_subset csp nb (d nb) a d u z
        rw [hres] at this
        exact this hz
      cases ok with
      | false => exact hd1 v y hy
      | true => exact hd1 v y (ih a1 d1 v y hy)

theorem fcConstraints_domains_subset (csp : CSP) (justBound : Var)
    (cs : List Constraint) (a : Assignment) (d : DomMap) :
    ∀ v y, y ∈ (fcConstraints csp justBound cs a d).2.2 v → y ∈ d v := by
  induction cs generalizing a d with
  | nil => intro v y hy; exact hy
  | cons c rest ih =>
    intro v y hy
    simp only [fcConstraints] at hy
    by_cases ht : fcTriggers c justBound = true
    · rw [if_pos ht] at hy
      rcases hres : fcNeighbors csp c.varsOf a d with ⟨ok, a1, d1⟩
      rw [hres] at hy
      have hd1 : ∀ u z, z ∈ d1 u → z ∈ d u := by
        intro u z hz
        have := fcNeighbors_domains_subset csp c.varsOf a d u z
        rw [hres] at this
        exact this hz
      cases ok with
      | false => exact hd1 v y hy
      | true => exact hd1 v y (ih a1 d1 v y hy)
    · rw [if_neg ht] at hy
      exact ih a d v y hy

/-- `forwardChecking` never adds domain values: the final domains object
maps every variable to a sublist of candidates it had at entry. -/
theorem forwardChecking_domains_subset (csp : CSP) (justBound : Var)
    (a : Assignment) (d : DomMap) :
    ∀ v y, y ∈ (forwardChecking csp justBound a d).2.2 v → y ∈ d v :=
  fcConstraints_domains_subset csp justBound (csp.constraints justBound) a d

/- ### Soundness of the four search strategies -/

theorem backtrackingSearch_sound (csp : CSP) (R : List Constraint)
    (hreg : Registered csp R) :
    ∀ (n : Nat) (a r : Assignment),
      (keysA a).Nodup →
      (∀ p ∈ a, p.1 ∈ csp.vars ∧ p.2 ∈ csp.domains p.1) →
      (∀ c ∈ R, (∀ v ∈ c.varsOf, isBound a v = true) →
        c.satisfied a = true) →
      backtrackingSearch csp n a = some r →
      (keysA r).Nodup ∧ (∀ p ∈ r, p.1 ∈ csp.vars ∧ p.2 ∈ csp.domains p.1) ∧
      (∀ c ∈ R, (∀ v ∈ c.varsOf, isBound r v = true) →
        c.satisfied r = true) ∧
      sizeA r = csp.vars.length := by
  intro n
  induction n with
  | zero =>
    intro a r _ _ _ hsome
    simp [backtrackingSearch] at hsome
  | succ n ih =>
    intro a r hnd hmem hsat hsome
    by_cases hsz : sizeA a = csp.vars.length
    · have har : a = r := by
        have h2 : some a = some r := by
          rw [← hsome]; simp [backtrackingSearch, if_pos hsz]
        exact Option.some.inj h2
      subst har
      exact ⟨hnd, hmem, hsat, hsz⟩
    · cases hfil : csp.vars.filter (fun v => !(isBound a v)) with
      | nil =>
        rw [show backtrackingSearch csp (n + 1) a = none from by
          simp [backtrackingSearch, if_neg hsz, hfil]] at hsome
        simp at hsome
      | cons first rest2 =>
        have hsome2 : firstSome (fun x =>
            if consistent csp first (insertA a first x) then
              backtrackingSearch csp n (insertA a first x)
            else none) (csp.domains first) = some r := by
          rw [← hsome]
          simp [backtrackingSearch, if_neg hsz, hfil]
        obtain ⟨x, hx, hfx⟩ := firstSome_some _ _ _ hsome2
        have hfirst : first ∈ csp.vars ∧ ¬(isBound a first = true) := by
          have hmf : first ∈ csp.vars.filter (fun v => !(isBound a v)) := by
            rw [hfil]; exact List.mem_cons_self _ _
          simpa using List.mem_filter.mp hmf
        have hnone : lookupA a first = none := by
          cases ho : lookupA a first with
          | none => rfl
          | some z => exact absurd (by simp [isBound, ho]) hfirst.2
        by_cases hcons : consistent csp first (insertA a first x) = true
        · rw [if_pos hcons] at hfx
          obtain ⟨hnd1, hmem1⟩ := keys_step csp a first x hnone hnd hmem
            hfirst.1 hx
          exact ih (insertA a first x) r hnd1 hmem1
            (satInv_step csp R hreg a first x hnone hcons hsat) hfx
        · rw [if_neg hcons] at hfx
          simp at hfx

theorem backtrackingSearchWithMRV_sound (csp : CSP) (R : List Constraint)
    (hreg : Registered csp R) :
    ∀ (n : Nat) (a r : Assignment),
      (keysA a).Nodup →
      (∀ p ∈ a, p.1 ∈ csp.vars ∧ p.2 ∈ csp.domains p.1) →
      (∀ c ∈ R, (∀ v ∈ c.varsOf, isBound a v = true) →
        c.satisfied a = true) →
      backtrackingSearchWithMRV csp n a = some r →
      (keysA r).Nodup ∧ (∀ p ∈ r, p.1 ∈ csp.vars ∧ p.2 ∈ csp.domains p.1) ∧
      (∀ c ∈ R, (∀ v ∈ c.varsOf, isBound r v = true) →
        c.satisfied r = true) ∧
      sizeA r = csp.vars.length := by
  intro n
  induction n with
  | zero =>
    intro a r _ _ _ hsome
    simp [backtrackingSearchWithMRV] at hsome
  | succ n ih =>
    intro a r hnd hmem hsat hsome
    by_cases hsz : sizeA a = csp.vars.length
    · have har : a = r := by
        have h2 : some a = some r := by
          rw [← hsome]; simp [backtrackingSearchWithMRV, if_pos hsz]
        exact Option.some.inj h2
      subst har
      exact ⟨hnd, hmem, hsat, hsz⟩
    · cases hfil : csp.vars.filter (fun v => !(isBound a v)) with
      | nil =>
        rw [show backtrackingSearchWithMRV csp (n + 1) a = none from by
          simp [backtrackingSearchWithMRV, if_neg hsz, hfil]] at hsome
        simp at hsome
      | cons v rest2 =>
        have hsome2 : firstSome (fun x =>
            if consistent csp (mrv csp (v :: rest2))
                (insertA a (mrv csp (v :: rest2)) x) then
              backtrackingSearchWithMRV csp n
                (insertA a (mrv csp (v :: rest2)) x)
            else none) (csp.domains (mrv csp (v :: rest2))) = some r := by
          rw [← hsome]
          simp [backtrackingSearchWithMRV, if_neg hsz, hfil]
        obtain ⟨x, hx, hfx⟩ := firstSome_some _ _ _ hsome2
        have hmf : mrv csp (v :: rest2) ∈
            csp.vars.filter (fun u => !(isBound a u)) := by
          rw [hfil]
          simpa [mrv, mrvD] using mrvFold_mem csp.domains rest2 v
        have hfirst : mrv csp (v :: rest2) ∈ csp.vars ∧
            ¬(isBound a (mrv csp (v :: rest2)) = true) := by
          simpa using List.mem_filter.mp hmf
        have hnone : lookupA a (mrv csp (v :: rest2)) = none := by
          cases ho : lookupA a (mrv csp (v :: rest2)) with
          | none => rfl
          | some z => exact absurd (by simp [isBound, ho]) hfirst.2
        by_cases hcons : consistent csp (mrv csp (v :: rest2))
            (insertA a (mrv csp (v :: rest2)) x) = true
        · rw [if_pos hcons] at hfx
          obtain ⟨hnd1, hmem1⟩ := keys_step csp a (mrv csp (v :: rest2)) x
            hnone hnd hmem hfirst.1 hx
          exact ih (insertA a (mrv csp (v :: rest2)) x) r hnd1 hmem1
            (satInv_step csp R hreg a (mrv csp (v :: rest2)) x hnone hcons
              hsat) hfx
        · rw [if_neg hcons] at hfx
          simp at hfx

theorem forwardCheckingSearch_sound (csp : CSP) (R : List Constraint)
    (hreg : Registered csp R) :
    ∀ (n : Nat) (a : Assignment) (d : DomMap) (r : Assignment),
      (keysA a).Nodup →
      (∀ p ∈ a, p.1 ∈ csp.vars ∧ p.2 ∈ csp.domains p.1) →
      (∀ c ∈ R, (∀ v ∈ c.varsOf, isBound a v = true) →
        c.satisfied a = true) →
      (∀ v, ∀ y ∈ d v, y ∈ csp.domains v) →
      forwardCheckingSearch csp n a d = some r →
      (keysA r).Nodup ∧ (∀ p ∈ r, p.1 ∈ csp.vars ∧ p.2 ∈ csp.domains p.1) ∧
      (∀ c ∈ R, (∀ v ∈ c.varsOf, isBound r v = true) →
        c.satisfied r = true) ∧
      sizeA r = csp.vars.length := by
  intro n
  induction n with
  | zero =>
    intro a d r _ _ _ _ hsome
    simp [forwardCheckingSearch] at hsome
  | succ n ih =>
    intro a d r hnd hmem hsat hdsub hsome
    by_cases hsz : sizeA a = csp.vars.length
    · have har : a = r := by
        have h2 : some a = some r := by
          rw [← hsome]; simp [forwardCheckingSearch, if_pos hsz]
        exact Option.some.inj h2
      subst har
      exact ⟨hnd, hmem, hsat, hsz⟩
    · cases hfil : csp.vars.filter (fun v => !(isBound a v)) with
      | nil =>
        rw [show forwardCheckingSearch csp (n + 1) a d = none from by
          simp [forwardCheckingSearch, if_neg hsz, hfil]] at hsome
        simp at hsome
      | cons first rest2 =>
        have hsome2 : firstSome (fun x =>
            if consistent csp first (insertA a first x) then
              match forwardChecking csp first (insertA a first x) d with
              | (true, a2, d2) => forwardCheckingSearch csp n a2 d2
              | (false, _, _) => none
            else none) (d first) = some r := by
          rw [← hsome]
          simp [forwardCheckingSearch, if_neg hsz, hfil]
        obtain ⟨x, hx, hfx⟩ := firstSome_some _ _ _ hsome2
        have hfirst : first ∈ csp.vars ∧ ¬(isBound a first = true) := by
          have hmf : first ∈ csp.vars.filter (fun v => !(isBound a v)) := by
            rw [hfil]; exact List.mem_cons_self _ _
          simpa using List.mem_filter.mp hmf
        have hnone : lookupA a first = none := by
          cases ho : lookupA a first with
          | none => rfl
          | some z => exact absurd (by simp [isBound, ho]) hfirst.2
        by_cases hcons : consistent csp first (insertA a first x) = true
        · rw [if_pos hcons] at hfx
          rcases hfcr : forwardChecking csp first (insertA a first x) d
            with ⟨ok, a2, d2⟩
          cases ok with
          | false =>
            have hfx2 : (none : Option Assignment) = some r := by
              rw [hfcr] at hfx; exact hfx
            simp at hfx2
          | true =>
            have hfx2 : forwardCheckingSearch csp n a2 d2 = some r := by
              rw [hfcr] at hfx; exact hfx
            have ha2 : a2 = insertA a first x := by
              have hrest := forwardChecking_assignment_restored csp first
                (insertA a first x) d
              rw [hfcr] at hrest
              exact hrest
            have hd2 : ∀ v, ∀ y ∈ d2 v, y ∈ csp.domains v := by
              intro v y hy
              have hin : y ∈ (forwardChecking csp first
                  (insertA a first x) d).2.2 v := by
                rw [hfcr]; exact hy
              exact hdsub v y
                (forwardChecking_domains_subset csp first _ d v y hin)
            obtain ⟨hnd1, hmem1⟩ := keys_step csp a first x hnone hnd hmem
              hfirst.1 (hdsub first x hx)
            rw [ha2] at hfx2
            exact ih (insertA a first x) d2 r hnd1 hmem1
              (satInv_step csp R hreg a first x hnone hcons hsat) hd2 hfx2
        · rw [if_neg hcons] at hfx
          simp at hfx

theorem forwardCheckingSearchWithMRV_sound (csp : CSP) (R : List Constraint)
    (hreg : Registered csp R) :
    ∀ (n : Nat) (a : Assignment) (d : DomMap) (r : Assignment),
      (keysA a).Nodup →
      (∀ p ∈ a, p.1 ∈ csp.vars ∧ p.2 ∈ csp.domains p.1) →
      (∀ c ∈ R, (∀ v ∈ c.varsOf, isBound a v = true) →
        c.satisfied a = true) →
      (∀ v, ∀ y ∈ d v, y ∈ csp.domains v) →
      forwardCheckingSearchWithMRV csp n a d = some r →
      (keysA r).Nodup ∧ (∀ p ∈ r, p.1 ∈ csp.vars ∧ p.2 ∈ csp.domains p.1) ∧
      (∀ c ∈ R, (∀ v ∈ c.varsOf, isBound r v = true) →
        c.satisfied r = true) ∧
      sizeA r = csp.vars.length := by
  intro n
  induction n with
  | zero =>
    intro a d r _ _ _ _ hsome
    simp [forwardCheckingSearchWithMRV] at hsome
  | succ n ih =>
    intro a d r hnd hmem hsat hdsub hsome
    by_cases hsz : sizeA a = csp.vars.length
    · have har : a = r := by
        have h2 : some a = some r := by
          rw [← hsome]; simp [forwardCheckingSearchWithMRV, if_pos hsz]
        exact Option.some.inj h2
      subst har
      exact ⟨hnd, hmem, hsat, hsz⟩
    · cases hfil : csp.vars.filter (fun v => !(isBound a v)) with
      | nil =>
        rw [show forwardCheckingSearchWithMRV csp (n + 1) a d = none from by
          simp [forwardCheckingSearchWithMRV, if_neg hsz, hfil]] at hsome
        simp at hsome
      | cons v rest2 =>
        have hsome2 : firstSome (fun x =>
            if consistent csp (mrv csp (v :: rest2))
                (insertA a (mrv csp (v :: rest2)) x) then
              match forwardChecking csp (mrv csp (v :: rest2))
                  (insertA a (mrv csp (v :: rest2)) x) d with
              | (true, a2, d2) => forwardCheckingSearchWithMRV csp n a2 d2
              | (false, _, _) => none
            else none) (d (mrv csp (v :: rest2))) = some r := by
          rw [← hsome]
          simp [forwardCheckingSearchWithMRV, if_neg hsz, hfil]
        obtain ⟨x, hx, hfx⟩ := firstSome_some _ _ _ hsome2
        have hmf : mrv csp (v :: rest2) ∈
            csp.vars.filter (fun u => !(isBound a u)) := by
          rw [hfil]
          simpa [mrv, mrvD] using mrvFold_mem csp.domains rest2 v
        have hfirst : mrv csp (v :: rest2) ∈ csp.vars ∧
            ¬(isBound a (mrv csp (v :: rest2)) = true) := by
          simpa using List.mem_filter.mp hmf
        have hnone : lookupA a (mrv csp (v :: rest2)) = none := by
          cases ho : lookupA a (mrv csp (v :: rest2)) with
          | none => rfl
          | some z => exact absurd (by simp [isBound, ho]) hfirst.2
        by_cases hcons : consistent csp (mrv csp (v :: rest2))
            (insertA a (mrv csp (v :: rest2)) x) = true
        · rw [if_pos hcons] at hfx
          rcases hfcr : forwardChecking csp (mrv csp (v :: rest2))
              (insertA a (mrv csp (v :: rest2)) x) d with ⟨ok, a2, d2⟩
          cases ok with
          | false =>
            have hfx2 : (none : Option Assignment) = some r := by
              rw [hfcr] at hfx; exact hfx
            simp at hfx2
          | true =>
            have hfx2 : forwardCheckingSearchWithMRV csp n a2 d2 = some r := by
              rw [hfcr] at hfx; exact hfx
            have ha2 : a2 = insertA a (mrv csp (v :: rest2)) x := by
              have hrest := forwardChecking_assignment_restored csp
                (mrv csp (v :: rest2)) (insertA a (mrv csp (v :: rest2)) x) d
              rw [hfcr] at hrest
              exact hrest
            have hd2 : ∀ u, ∀ y ∈ d2 u, y ∈ csp.domains u := by
              intro u y hy
              have hin : y ∈ (forwardChecking csp (mrv csp (v :: rest2))
                  (insertA a (mrv csp (v :: rest2)) x) d).2.2 u := by
                rw [hfcr]; exact hy
              exact hdsub u y
                (forwardChecking_domains_subset csp _ _ d u y hin)
            obtain ⟨hnd1, hmem1⟩ := keys_step csp a (mrv csp (v :: rest2)) x
              hnone hnd hmem hfirst.1 (hdsub _ x hx)
            rw [ha2] at hfx2
            exact ih (insertA a (mrv csp (v :: rest2)) x) d2 r hnd1 hmem1
              (satInv_step csp R hreg a (mrv csp (v :: rest2)) x hnone hcons
                hsat) hd2 hfx2
        · rw [if_neg hcons] at hfx
          simp at hfx

/-- A complete assignment (as many distinct bound keys, all CSP variables,
as the model has variables) binds every CSP variable. -/
theorem complete_binds_all (csp : CSP) (r : Assignment)
    (hnd : (keysA r).Nodup)
    (hmem : ∀ p ∈ r, p.1 ∈ csp.vars ∧ p.2 ∈ csp.domains p.1)
    (hsz : sizeA r = csp.vars.length) :
    ∀ v ∈ csp.vars, isBound r v = true := by
  have hsub : (keysA r).toFinset ⊆ csp.vars.toFinset := by
    intro v hv
    rw [List.mem_toFinset] at *
    obtain ⟨p, hp, hpv⟩ := List.mem_map.mp hv
    exact hpv ▸ (hmem p hp).1
  have hcard : csp.vars.toFinset.card ≤ (keysA r).toFinset.card := by
    have h1 : (keysA r).toFinset.card = (keysA r).length :=
      List.toFinset_card_of_nodup hnd
    have h2 : (keysA r).length = r.length := by simp [keysA]
    have h3 : csp.vars.toFinset.card ≤ csp.vars.length :=
      List.toFinset_card_le _
    simp only [sizeA] at hsz
    omega
  have heq : (keysA r).toFinset = csp.vars.toFinset :=
    Finset.eq_of_subset_of_card_le hsub hcard
  intro v hv
  rw [isBound_iff_mem_keys]
  have h4 : v ∈ csp.vars.toFinset := List.mem_toFinset.mpr hv
  rw [← heq] at h4
  exact List.mem_toFinset.mp h4

/-- On the empty assignment every fully-bound constraint is the empty
constraint, which both variants satisfy. -/
theorem satInv_empty :
    ∀ c : Constraint, (∀ v ∈ c.varsOf, isBound ([] : Assignment) v = true) →
      c.satisfied [] = true := by
  intro c hall
  cases c with
  | allDiff vs =>
    cases vs with
    | nil => rfl
    | cons v rest =>
      exact absurd (hall v (List.mem_cons_self _ _))
        (by simp [isBound, lookupA])
  | colSum vs =>
    cases hvs : vs.getLast? with
    | none => simp [Constraint.satisfied, colSumSatisfied, hvs]
    | some tv =>
      exact absurd (hall tv (List.mem_of_mem_getLast? hvs))
        (by simp [isBound, lookupA])

/--
C1 (amended): for every Model with registered constraints `R`, whenever
any of the four search strategies started from the *default empty*
assignment returns a non-null assignment, the number of bound variables in
it equals the Model's variable count and every registered constraint is
satisfied by it. (For non-empty initial assignments the claim fails, see
the counterexample: a complete initial assignment is returned unchecked.)
-/
theorem searches_from_empty_sound (csp : CSP) (R : List Constraint)
    (hreg : Registered csp R) (n : Nat) :
    (∀ r, backtrackingSearch csp n [] = some r →
      sizeA r = csp.vars.length ∧ ∀ c ∈ R, c.satisfied r = true) ∧
    (∀ r, backtrackingSearchWithMRV csp n [] = some r →
      sizeA r = csp.vars.length ∧ ∀ c ∈ R, c.satisfied r = true) ∧
    (∀ r, forwardCheckingSearch csp n [] csp.domains = some r →
      sizeA r = csp.vars.length ∧ ∀ c ∈ R, c.satisfied r = true) ∧
    (∀ r, forwardCheckingSearchWithMRV csp n [] csp.domains = some r →
      sizeA r = csp.vars.length ∧ ∀ c ∈ R, c.satisfied r = true) := by
  have hnd0 : (keysA ([] : Assignment)).Nodup := by simp [keysA]
  have hmem0 : ∀ p ∈ ([] : Assignment),
      p.1 ∈ csp.vars ∧ p.2 ∈ csp.domains p.1 := by simp
  have hsat0 : ∀ c ∈ R, (∀ v ∈ c.varsOf,
      isBound ([] : Assignment) v = true) → c.satisfied [] = true :=
    fun c _ => satInv_empty c
  have hd0 : ∀ v, ∀ y ∈ csp.domains v, y ∈ csp.domains v := fun _ _ hy => hy
  have hfinish : ∀ r : Assignment,
      (keysA r).Nodup →
      (∀ p ∈ r, p.1 ∈ csp.vars ∧ p.2 ∈ csp.domains p.1) →
      (∀ c ∈ R, (∀ v ∈ c.varsOf, isBound r v = true) →
        c.satisfied r = true) →
      sizeA r = csp.vars.length →
      sizeA r = csp.vars.length ∧ ∀ c ∈ R, c.satisfied r = true := by
    intro r hnd hmem hsat hsz
    refine ⟨hsz, fun c hc => hsat c hc (fun v hv => ?_)⟩
    exact complete_binds_all csp r hnd hmem hsz v (hreg c hc v hv).1
  refine ⟨fun r hr => ?_, fun r hr => ?_, fun r hr => ?_, fun r hr => ?_⟩
  · obtain ⟨h1, h2, h3, h4⟩ :=
      backtrackingSearch_sound csp R hreg n [] r hnd0 hmem0 hsat0 hr
    exact hfinish r h1 h2 h3 h4
  · obtain ⟨h1, h2, h3, h4⟩ :=
      backtrackingSearchWithMRV_sound csp R hreg n [] r hnd0 hmem0 hsat0 hr
    exact hfinish r h1 h2 h3 h4
  · obtain ⟨h1, h2, h3, h4⟩ :=
      forwardCheckingSearch_sound csp R hreg n [] csp.domains r hnd0 hmem0
        hsat0 hd0 hr
    exact hfinish r h1 h2 h3 h4
  · obtain ⟨h1, h2, h3, h4⟩ :=
      forwardCheckingSearchWithMRV_sound csp R hreg n [] csp.domains r hnd0
        hmem0 hsat0 hd0 hr
    exact hfinish r h1 h2 h3 h4

/--
C1 counterexample: for a non-empty (here complete) initial assignment the
claim fails — `backtrackingSearch` returns the initial assignment `{0: 4,
1: 3}` unmodified and unchecked, although the registered column-sum
constraint is violated by it (4 > 3).
-/
theorem searches_nonempty_start_claim_counterexample :
    Registered csp1 R1 ∧
    backtrackingSearch csp1 3 [(0, 4), (1, 3)] = some [(0, 4), (1, 3)] ∧
    Constraint.colSum [0, 1] ∈ R1 ∧
    (Constraint.colSum [0, 1]).satisfied [(0, 4), (1, 3)] = false := by
  refine ⟨?_, by decide, by decide, by decide⟩
  intro c hc v hv
  simp only [R1, List.mem_singleton] at hc
  subst hc
  simp only [Constraint.varsOf] at hv
  -- v ∈ [0, 1]
  rcases List.mem_cons.mp hv with h | h
  · subst h; exact ⟨by decide, by decide⟩
  · rcases List.mem_cons.mp h with h2 | h2
    · subst h2; exact ⟨by decide, by decide⟩
    · exact absurd h2 (List.not_mem_nil v)

/--
C1 witness: on the model `csp1` (which the plain backtracking search does
solve from the empty assignment), the amended theorem applies with its
registration hypothesis discharged.
-/
theorem searches_from_empty_sound_witness :
    Registered csp1 R1 ∧
    ((∀ r, backtrackingSearch csp1 4 [] = some r →
      sizeA r = csp1.vars.length ∧ ∀ c ∈ R1, c.satisfied r = true) ∧
    (∀ r, backtrackingSearchWithMRV csp1 4 [] = some r →
      sizeA r = csp1.vars.length ∧ ∀ c ∈ R1, c.satisfied r = true) ∧
    (∀ r, forwardCheckingSearch csp1 4 [] csp1.domains = some r →
      sizeA r = csp1.vars.length ∧ ∀ c ∈ R1, c.satisfied r = true) ∧
    (∀ r, forwardCheckingSearchWithMRV csp1 4 [] csp1.domains = some r →
      sizeA r = csp1.vars.length ∧ ∀ c ∈ R1, c.satisfied r = true)) ∧
    backtrackingSearch csp1 4 [] = some [(0, 0), (1, 0)] := by
  have hreg : Registered csp1 R1 := by
    intro c hc v hv
    simp only [R1, List.mem_singleton] at hc
    subst hc
    simp only [Constraint.varsOf] at hv
    rcases List.mem_cons.mp hv with h | h
    · subst h; exact ⟨by decide, by decide⟩
    · rcases List.mem_cons.mp h with h2 | h2
      · subst h2; exact ⟨by decide, by decide⟩
      · exact absurd h2 (List.not_mem_nil v)
  exact ⟨hreg, searches_from_empty_sound csp1 R1 hreg 4, by decide⟩

/- ### Violations of a constraint persist under extension (nonnegative
values) -/

theorem colSumSatisfied_eq_false_iff (vs : List Var) (a : Assignment) :
    colSumSatisfied vs a = false ↔
      ∃ tv t, vs.getLast? = some tv ∧ lookupA a tv = some t ∧
        (((sumCount tv a vs).2 = vs.length - 1 ∧ (sumCount tv a vs).1 ≠ t) ∨
          (sumCount tv a vs).1 > t) := by
  cases hlast : vs.getLast? with
  | none => simp [colSumSatisfied, hlast]
  | some tv =>
    cases ht : lookupA a tv with
    | none => simp [colSumSatisfied, hlast, ht]
    | some t =>
      constructor
      · intro hf
        refine ⟨tv, t, rfl, ht, ?_⟩
        by_contra hno
        push_neg at hno
        have hsat : colSumSatisfied vs a = true := by
          simp only [colSumSatisfied, hlast, ht]
          have hb1 : (decide ((sumCount tv a vs).2 = vs.length - 1) &&
              ((sumCount tv a vs).1 != t)) = false := by
            by_cases hc1 : (sumCount tv a vs).2 = vs.length - 1
            · have := hno.1 hc1
              simp [this]
            · simp [hc1]
          rw [hb1]
          simp only [Bool.false_eq_true, if_false]
          rw [if_neg (by omega : ¬ (sumCount tv a vs).1 > t)]
        rw [hf] at hsat
        exact Bool.false_ne_true hsat
      · rintro ⟨tv2, t2, hlast2, ht2, hcond⟩
        have htv2 : tv2 = tv := (Option.some.inj hlast2).symm
        rw [htv2] at ht2 hcond
        have ht2e : t2 = t := by
          rw [ht] at ht2
          exact (Option.some.inj ht2).symm
        rw [ht2e] at hcond
        simp only [colSumSatisfied, hlast, ht]
        by_cases hc1 : ((sumCount tv a vs).2 = vs.length - 1 ∧
            (sumCount tv a vs).1 ≠ t)
        · simp [hc1.1, hc1.2]
        · have hb : (decide ((sumCount tv a vs).2 = vs.length - 1) &&
              ((sumCount tv a vs).1 != t)) = false := by
            rcases not_and_or.mp hc1 with h | h
            · simp [h]
            · push_neg at h
              simp [h]
          rw [hb]
          simp only [Bool.false_eq_true, if_false]
          have hc3 : (sumCount tv a vs).1 > t := by
            rcases hcond with hcc | hcc
            · exact absurd hcc hc1
            · exact hcc
          rw [if_pos hc3]

/-- The addend count never exceeds the number of non-target occurrences. -/
theorem sumCount_le_filter (tv : Var) (a : Assignment) (l : List Var) :
    (sumCount tv a l).2 ≤ (l.filter (fun v => v != tv)).length := by
  induction l with
  | nil => exact le_refl _
  | cons v rest ih =>
    by_cases hv : v = tv
    · simp only [sumCount, if_pos hv, List.filter_cons]
      have : (v != tv) = false := by simp [hv]
      rw [this]
      simpa using ih
    · simp only [sumCount, if_neg hv, List.filter_cons]
      have : (v != tv) = true := by simp [hv]
      rw [this]
      cases hl : lookupA a v with
      | some x => simpa using ih
      | none => simp only; calc (sumCount tv a rest).2 ≤ _ := ih
                  _ ≤ _ := Nat.le_succ _

/-- Sum and count of assigned addends grow monotonically under extension
by nonnegative values; once all non-target occurrences are counted they
are frozen. -/
theorem sumCount_mono (tv : Var) (a b : Assignment) (l : List Var)
    (hext : ∀ v x, lookupA a v = some x → lookupA b v = some x)
    (hnn : ∀ p ∈ b, (0 : Int) ≤ p.2) :
    (sumCount tv a l).1 ≤ (sumCount tv b l).1 ∧
    (sumCount tv a l).2 ≤ (sumCount tv b l).2 ∧
    ((sumCount tv a l).2 = (l.filter (fun v => v != tv)).length →
      sumCount tv b l = sumCount tv a l) := by
  induction l with
  | nil => exact ⟨le_refl _, le_refl _, fun _ => rfl⟩
  | cons v rest ih =>
    obtain ⟨ihs, ihc, ihf⟩ := ih
    by_cases hv : v = tv
    · have hfv : (v != tv) = false := by simp [hv]
      simp only [sumCount, if_pos hv, List.filter_cons, hfv,
        Bool.false_eq_true, if_false]
      exact ⟨ihs, ihc, fun h => ihf (by simpa using h)⟩
    · have hfv : (v != tv) = true := by simp [hv]
      simp only [sumCount, if_neg hv, List.filter_cons, hfv, if_true]
      cases hl : lookupA a v with
      | some x =>
        have hlb : lookupA b v = some x := hext v x hl
        simp only [hlb]
        refine ⟨by omega, by omega, fun h => ?_⟩
        have h2 : (sumCount tv a rest).2 =
            (rest.filter (fun v => v != tv)).length := by
          simp only [List.length_cons] at h
          omega
        rw [ihf h2]
      | none =>
        cases hlb : lookupA b v with
        | none =>
          simp only
          refine ⟨ihs, by omega, fun h => ?_⟩
          exfalso
          have := sumCount_le_filter tv a rest
          simp only [List.length_cons] at h
          omega
        | some y =>
          have hy : (0 : Int) ≤ y := hnn (v, y) (lookupA_mem b v y hlb)
          simp only
          refine ⟨by omega, by omega, fun h => ?_⟩
          exfalso
          have := sumCount_le_filter tv a rest
          simp only [List.length_cons] at h
          omega

/-- A violated constraint stays violated in any extension of the
assignment whose values are all nonnegative. -/
theorem satisfied_false_persists (c : Constraint) (a b : Assignment)
    (hext : ∀ v x, lookupA a v = some x → lookupA b v = some x)
    (hnn : ∀ p ∈ b, (0 : Int) ≤ p.2)
    (hf : c.satisfied a = false) : c.satisfied b = false := by
  cases c with
  | allDiff vs =>
    simp only [Constraint.satisfied] at hf ⊢
    rw [allDiffSatisfied_eq_false_iff] at hf ⊢
    obtain ⟨v0, hh, v, hv, hne, hsome, heq⟩ := hf
    obtain ⟨x, hx⟩ := Option.isSome_iff_exists.mp hsome
    have hx0 : lookupA a v0 = some x := by rw [heq, hx]
    refine ⟨v0, hh, v, hv, hne, ?_, ?_⟩
    · rw [hext v x hx]; rfl
    · rw [hext v x hx, hext v0 x hx0]
  | colSum vs =>
    simp only [Constraint.satisfied] at hf ⊢
    rw [colSumSatisfied_eq_false_iff] at hf ⊢
    obtain ⟨tv, t, hlast, ht, hcond⟩ := hf
    obtain ⟨hs, hc, hfreeze⟩ := sumCount_mono tv a b vs hext hnn
    refine ⟨tv, t, hlast, hext tv t ht, ?_⟩
    rcases hcond with ⟨hc1, hc2⟩ | hc3
    · left
      have htv : tv ∈ vs := List.mem_of_mem_getLast? hlast
      have hflt : (vs.filter (fun v => v != tv)).length < vs.length := by
        apply List.length_filter_lt_length_iff_exists.mpr
        exact ⟨tv, htv, by simp⟩
      have hle := sumCount_le_filter tv a vs
      have hcfull : (sumCount tv a vs).2 =
          (vs.filter (fun v => v != tv)).length := by omega
      rw [hfreeze hcfull]
      exact ⟨hc1, hc2⟩
    · right
      omega

/- ### A total solution keeps every partial restriction consistent -/

theorem lookupA_totalOf (s : Var → Int) (l : List Var) (v : Var)
    (hv : v ∈ l) : lookupA (totalOf s l) v = some (s v) := by
  induction l with
  | nil => exact absurd hv (List.not_mem_nil v)
  | cons u rest ih =>
    simp only [totalOf, List.map_cons, lookupA_cons]
    by_cases hu : u = v
    · rw [if_pos hu, hu]
    · rw [if_neg hu]
      rcases List.mem_cons.mp hv with h | h
      · exact absurd h.symm hu
      · exact ih h

/-- Any partial assignment agreeing with a total solution satisfies every
registered constraint (under nonnegative domains). -/
theorem solution_restriction_satisfied (csp : CSP) (R : List Constraint)
    (hreg : Registered csp R) (hnn : NonnegDomains csp) (s : Var → Int)
    (hsol : IsSolutionVal csp R s) (a : Assignment)
    (hag : ∀ p ∈ a, s p.1 = p.2 ∧ p.1 ∈ csp.vars)
    (c : Constraint) (hc : c ∈ R) : c.satisfied a = true := by
  by_contra hf
  rw [Bool.not_eq_true] at hf
  set a2 := a ++ (c.varsOf.filter (fun v => !(isBound a v))).map
    (fun v => (v, s v)) with ha2
  have hext : ∀ v x, lookupA a v = some x → lookupA a2 v = some x := by
    intro v x hvx
    rw [ha2, lookupA_append, hvx]
    rfl
  have hnn2 : ∀ p ∈ a2, (0 : Int) ≤ p.2 := by
    intro p hp
    rw [ha2] at hp
    rcases List.mem_append.mp hp with hpa | hpm
    · obtain ⟨hps, hpv⟩ := hag p hpa
      rw [← hps]
      exact hnn p.1 hpv (s p.1) (hsol.1 p.1 hpv)
    · obtain ⟨v, hvf, hpv⟩ := List.mem_map.mp hpm
      have hvc : v ∈ c.varsOf := List.mem_of_mem_filter hvf
      have hvv : v ∈ csp.vars := (hreg c hc v hvc).1
      rw [← hpv]
      exact hnn v hvv (s v) (hsol.1 v hvv)
  have hf2 : c.satisfied a2 = false := satisfied_false_persists c a a2 hext hnn2 hf
  have hcongr : ∀ v ∈ c.varsOf,
      lookupA a2 v = lookupA (totalOf s csp.vars) v := by
    intro v hv
    have hvv : v ∈ csp.vars := (hreg c hc v hv).1
    rw [lookupA_totalOf s csp.vars v hvv]
    cases hl : lookupA a v with
    | some x =>
      have hsx : s v = x := by
        obtain ⟨hps, _⟩ := hag (v, x) (lookupA_mem a v x hl)
        exact hps
      rw [ha2, lookupA_append, hl]
      simp [hsx]
    | none =>
      rw [ha2, lookupA_append, hl]
      have hvf : v ∈ c.varsOf.filter (fun u => !(isBound a u)) := by
        rw [List.mem_filter]
        exact ⟨hv, by simp [isBound, hl]⟩
      have : (c.varsOf.filter (fun u => !(isBound a u))).map
          (fun u => (u, s u)) = totalOf s (c.varsOf.filter
            (fun u => !(isBound a u))) := rfl
      rw [this, lookupA_totalOf s _ v hvf]
      rfl
  have := satisfied_congr c a2 (totalOf s csp.vars) hcongr
  rw [hf2] at this
  have hTrue := hsol.2 c hc
  rw [← this] at hTrue
  exact Bool.false_ne_true hTrue

/-- A partial assignment agreeing with a solution passes every
`consistent` check at a model variable. -/
theorem solution_consistent (csp : CSP) (R : List Constraint)
    (hwf : WFModel csp R) (hnn : NonnegDomains csp) (s : Var → Int)
    (hsol : IsSolutionVal csp R s) (a : Assignment)
    (hag : ∀ p ∈ a, s p.1 = p.2 ∧ p.1 ∈ csp.vars)
    (v : Var) (hv : v ∈ csp.vars) : consistent csp v a = true := by
  simp only [consistent, List.all_eq_true]
  intro c hc
  exact solution_restriction_satisfied csp R hwf.1 hnn s hsol a hag c
    (hwf.2.1 v hv c hc)

/- ### Completeness: a solvable model is solved (bounded fuel) -/

theorem firstSome_none (f : α → Option β) (l : List α)
    (h : firstSome f l = none) : ∀ x ∈ l, f x = none := by
  induction l with
  | nil => intro x hx; exact absurd hx (List.not_mem_nil x)
  | cons y rest ih =>
    intro x hx
    simp only [firstSome] at h
    cases hfy : f y with
    | some r =>
      rw [hfy] at h
      simp at h
    | none =>
      have h2 : firstSome f rest = none := by rw [hfy] at h; exact h
      rcases List.mem_cons.mp hx with he | hm
      · rw [he]; exact hfy
      · exact ih h2 x hm

theorem isBound_false_lookup (a : Assignment) (v : Var)
    (h : ¬ isBound a v = true) : lookupA a v = none := by
  cases ho : lookupA a v with
  | none => rfl
  | some z => exact absurd (by simp [isBound, ho]) h

/-- With distinct variables and distinct keys drawn from them, the
unassigned-variable list has length `#vars - #assignment`. -/
theorem unassigned_length (csp : CSP) (a : Assignment)
    (hnd : (keysA a).Nodup) (hsub : ∀ p ∈ a, p.1 ∈ csp.vars)
    (hvnd : csp.vars.Nodup) :
    (csp.vars.filter (fun v => !(isBound a v))).length =
      csp.vars.length - sizeA a ∧ sizeA a ≤ csp.vars.length := by
  have hbound : (csp.vars.filter (fun v => isBound a v)).length = sizeA a := by
    have hnd2 : (csp.vars.filter (fun v => isBound a v)).Nodup :=
      hvnd.filter _
    have hset : (csp.vars.filter (fun v => isBound a v)).toFinset =
        (keysA a).toFinset := by
      ext v
      simp only [List.mem_toFinset, List.mem_filter]
      constructor
      · rintro ⟨_, hb⟩
        exact (isBound_iff_mem_keys a v).mp hb
      · intro hk
        refine ⟨?_, (isBound_iff_mem_keys a v).mpr hk⟩
        obtain ⟨p, hp, hpv⟩ := List.mem_map.mp hk
        exact hpv ▸ hsub p hp
    have h1 := List.toFinset_card_of_nodup hnd2
    have h2 := List.toFinset_card_of_nodup hnd
    rw [hset, h2] at h1
    have h3 : (keysA a).length = a.length := by simp [keysA]
    simp only [sizeA]
    omega
  have hsplit : csp.vars.length =
      (csp.vars.filter (fun v => isBound a v)).length +
      (csp.vars.filter (fun v => !(isBound a v))).length :=
    List.length_eq_length_filter_add _
  constructor <;> omega

/-- The solvable model is solved by plain backtracking from any partial
assignment agreeing with the solution, given enough fuel. -/
theorem backtrackingSearch_complete (csp : CSP) (R : List Constraint)
    (hwf : WFModel csp R) (hnn : NonnegDomains csp) (s : Var → Int)
    (hsol : IsSolutionVal csp R s) :
    ∀ (n : Nat) (a : Assignment), (keysA a).Nodup →
      (∀ p ∈ a, s p.1 = p.2 ∧ p.1 ∈ csp.vars) →
      n ≥ csp.vars.length - sizeA a + 1 →
      backtrackingSearch csp n a ≠ none := by
  intro n
  induction n with
  | zero => intro a _ _ hn; omega
  | succ n ih =>
    intro a hnd hag hn hcontra
    by_cases hsz : sizeA a = csp.vars.length
    · rw [show backtrackingSearch csp (n + 1) a = some a from by
        simp [backtrackingSearch, if_pos hsz]] at hcontra
      simp at hcontra
    · have hsub : ∀ p ∈ a, p.1 ∈ csp.vars := fun p hp => (hag p hp).2
      obtain ⟨hulen, hale⟩ := unassigned_length csp a hnd hsub hwf.2.2
      cases hfil : csp.vars.filter (fun v => !(isBound a v)) with
      | nil =>
        rw [hfil] at hulen
        simp only [List.length_nil] at hulen
        omega
      | cons first rest2 =>
        have hloop : firstSome (fun x =>
            if consistent csp first (insertA a first x) then
              backtrackingSearch csp n (insertA a first x)
            else none) (csp.domains first) = none := by
          rw [show (firstSome (fun x =>
              if consistent csp first (insertA a first x) then
                backtrackingSearch csp n (insertA a first x)
              else none) (csp.domains first) : Option Assignment) =
              backtrackingSearch csp (n + 1) a from by
            simp [backtrackingSearch, if_neg hsz, hfil]]
          exact hcontra
        have hfirst : first ∈ csp.vars ∧ ¬(isBound a first = true) := by
          have hmf : first ∈ csp.vars.filter (fun v => !(isBound a v)) := by
            rw [hfil]; exact List.mem_cons_self _ _
          simpa using List.mem_filter.mp hmf
        have hnone : lookupA a first = none :=
          isBound_false_lookup a first hfirst.2
        have hx : s first ∈ csp.domains first := hsol.1 first hfirst.1
        have hfx := firstSome_none _ _ hloop (s first) hx
        have hag1 : ∀ p ∈ insertA a first (s first),
            s p.1 = p.2 ∧ p.1 ∈ csp.vars := by
          intro p hp
          rw [insertA_not_bound a first (s first) hnone] at hp
          rcases List.mem_append.mp hp with hpa | hpx
          · exact hag p hpa
          · have hpe : p = (first, s first) := by simpa using hpx
            rw [hpe]
            exact ⟨rfl, hfirst.1⟩
        have hcons : consistent csp first (insertA a first (s first)) = true :=
          solution_consistent csp R hwf hnn s hsol _ hag1 first hfirst.1
        rw [if_pos hcons] at hfx
        have hnd1 : (keysA (insertA a first (s first))).Nodup := by
          rw [keysA_insertA_fresh a first (s first) hnone]
          have hfk : first ∉ keysA a := by
            intro hc
            exact hfirst.2 ((isBound_iff_mem_keys a first).mpr hc)
          simp [List.nodup_append, hnd, hfk]
        have hsz1 : sizeA (insertA a first (s first)) = sizeA a + 1 :=
          sizeA_insertA_fresh a first (s first) hnone
        exact ih (insertA a first (s first)) hnd1 hag1 (by omega) hfx

/- ### Forward checking cannot kill a branch that agrees with a
solution: the solution's values are never pruned -/

theorem fcVals_sol (csp : CSP) (R : List Constraint) (hwf : WFModel csp R)
    (hnn : NonnegDomains csp) (s : Var → Int)
    (hsol : IsSolutionVal csp R s) (nb : Var) (hnb : nb ∈ csp.vars) :
    ∀ (vals : List Int) (a : Assignment) (d : DomMap),
      (∀ p ∈ a, s p.1 = p.2 ∧ p.1 ∈ csp.vars) →
      lookupA a nb = none →
      (∀ v ∈ csp.vars, lookupA a v = none → s v ∈ d v) →
      (fcVals csp nb vals a d).1 = true ∧
      (∀ v ∈ csp.vars, lookupA a v = none →
        s v ∈ (fcVals csp nb vals a d).2.2 v) := by
  intro vals
  induction vals with
  | nil =>
    intro a d _ _ hDom
    exact ⟨rfl, fun v hv hu => hDom v hv hu⟩
  | cons x rest ih =>
    intro a d hag hnbu hDom
    simp only [fcVals]
    have hrem : removeA (insertA a nb x) nb = a :=
      removeA_insertA_fresh a nb x hnbu
    by_cases hc : consistent csp nb (insertA a nb x) = true
    · rw [if_pos hc, hrem]
      exact ih a d hag hnbu hDom
    · have hxne : s nb ≠ x := by
        intro hxe
        apply hc
        apply solution_consistent csp R hwf hnn s hsol _ _ nb hnb
        intro p hp
        rw [insertA_not_bound a nb x hnbu] at hp
        rcases List.mem_append.mp hp with hpa | hpx
        · exact hag p hpa
        · have hpe : p = (nb, x) := by simpa using hpx
          rw [hpe]
          exact ⟨hxe, hnb⟩
      rw [if_neg hc]
      have hDom1 : ∀ v ∈ csp.vars, lookupA a v = none →
          s v ∈ (updateD d nb ((d nb).filter (fun y => y != x))) v := by
        intro v hv hu
        simp only [updateD]
        by_cases hvnb : v = nb
        · rw [if_pos hvnb]
          rw [List.mem_filter]
          refine ⟨by rw [hvnb] at hu ⊢; exact hDom nb hnb hu, ?_⟩
          rw [hvnb]
          simp [hxne]
        · rw [if_neg hvnb]
          exact hDom v hv hu
      have hne0 : ¬ (((updateD d nb ((d nb).filter (fun y => y != x))) nb).length = 0) := by
        intro hzero
        have hmem := hDom1 nb hnb hnbu
        rw [List.length_eq_zero] at hzero
        rw [hzero] at hmem
        exact absurd hmem (List.not_mem_nil _)
      rw [if_neg hne0, hrem]
      exact ih a _ hag hnbu hDom1

theorem fcNeighbors_sol (csp : CSP) (R : List Constraint)
    (hwf : WFModel csp R) (hnn : NonnegDomains csp) (s : Var → Int)
    (hsol : IsSolutionVal csp R s) :
    ∀ (nbs : List Var) (a : Assignment) (d : DomMap),
      (∀ nb ∈ nbs, nb ∈ csp.vars) →
      (∀ p ∈ a, s p.1 = p.2 ∧ p.1 ∈ csp.vars) →
      (∀ v ∈ csp.vars, lookupA a v = none → s v ∈ d v) →
      (fcNeighbors csp nbs a d).1 = true ∧
      (∀ v ∈ csp.vars, lookupA a v = none →
        s v ∈ (fcNeighbors csp nbs a d).2.2 v) := by
  intro nbs
  induction nbs with
  | nil =>
    intro a d _ _ hDom
    exact ⟨rfl, fun v hv hu => hDom v hv hu⟩
  | cons nb rest ih =>
    intro a d hnbs hag hDom
    simp only [fcNeighbors]
    by_cases hb : isBound a nb = true
    · rw [if_pos hb]
      exact ih a d (fun u hu => hnbs u (List.mem_cons_of_mem _ hu)) hag hDom
    · rw [if_neg hb]
      have hnbu : lookupA a nb = none := isBound_false_lookup a nb hb
      obtain ⟨hok0, hDom0⟩ := fcVals_sol csp R hwf hnn s hsol nb
        (hnbs nb (List.mem_cons_self _ _)) (d nb) a d hag hnbu hDom
      have hrest0 := fcVals_assignment_restored csp nb (d nb) a d hnbu
      rcases hres : fcVals csp nb (d nb) a d with ⟨ok, a1, d1⟩
      rw [hres] at hok0 hrest0 hDom0
      simp only at hok0 hrest0 hDom0
      subst hok0
      subst hrest0
      exact ih a1 d1 (fun u hu => hnbs u (List.mem_cons_of_mem _ hu)) hag hDom0

theorem fcConstraints_sol (csp : CSP) (R : List Constraint)
    (hwf : WFModel csp R) (hnn : NonnegDomains csp) (s : Var → Int)
    (hsol : IsSolutionVal csp R s) (justBound : Var) :
    ∀ (cs : List Constraint) (a : Assignment) (d : DomMap),
      (∀ c ∈ cs, c ∈ R) →
      (∀ p ∈ a, s p.1 = p.2 ∧ p.1 ∈ csp.vars) →
      (∀ v ∈ csp.vars, lookupA a v = none → s v ∈ d v) →
      (fcConstraints csp justBound cs a d).1 = true ∧
      (∀ v ∈ csp.vars, lookupA a v = none →
        s v ∈ (fcConstraints csp justBound cs a d).2.2 v) := by
  intro cs
  induction cs with
  | nil =>
    intro a d _ _ hDom
    exact ⟨rfl, fun v hv hu => hDom v hv hu⟩
  | cons c rest ih =>
    intro a d hcs hag hDom
    simp only [fcConstraints]
    by_cases ht : fcTriggers c justBound = true
    · rw [if_pos ht]
      obtain ⟨hok0, hDom0⟩ := fcNeighbors_sol csp R hwf hnn s hsol c.varsOf
        a d (fun nb hnb => (hwf.1 c (hcs c (List.mem_cons_self _ _)) nb hnb).1)
        hag hDom
      have hrest0 := fcNeighbors_assignment_restored csp c.varsOf a d
      rcases hres : fcNeighbors csp c.varsOf a d with ⟨ok, a1, d1⟩
      rw [hres] at hok0 hrest0 hDom0
      simp only at hok0 hrest0 hDom0
      subst hok0
      subst hrest0
      exact ih a1 d1 (fun u hu => hcs u (List.mem_cons_of_mem _ hu)) hag hDom0
    · rw [if_neg ht]
      exact ih a d (fun u hu => hcs u (List.mem_cons_of_mem _ hu)) hag hDom

/-- `forwardChecking` from a solution-compatible state reports success and
keeps every unassigned variable's solution value in the pruned domains. -/
theorem forwardChecking_sol (csp : CSP) (R : List Constraint)
    (hwf : WFModel csp R) (hnn : NonnegDomains csp) (s : Var → Int)
    (hsol : IsSolutionVal csp R s) (justBound : Var)
    (hjb : justBound ∈ csp.vars) (a : Assignment) (d : DomMap)
    (hag : ∀ p ∈ a, s p.1 = p.2 ∧ p.1 ∈ csp.vars)
    (hDom : ∀ v ∈ csp.vars, lookupA a v = none → s v ∈ d v) :
    (forwardChecking csp justBound a d).1 = true ∧
    (∀ v ∈ csp.vars, lookupA a v = none →
      s v ∈ (forwardChecking csp justBound a d).2.2 v) :=
  fcConstraints_sol csp R hwf hnn s hsol justBound
    (csp.constraints justBound) a d (fun c hc => hwf.2.1 justBound hjb c hc)
    hag hDom

/-- The solvable model is solved by forward-checking search from any
partial assignment agreeing with the solution, given enough fuel and a
domain map that still holds the solution values of the unassigned
variables. -/
theorem forwardCheckingSearch_complete (csp : CSP) (R : List Constraint)
    (hwf : WFModel csp R) (hnn : NonnegDomains csp) (s : Var → Int)
    (hsol : IsSolutionVal csp R s) :
    ∀ (n : Nat) (a : Assignment) (d : DomMap), (keysA a).Nodup →
      (∀ p ∈ a, s p.1 = p.2 ∧ p.1 ∈ csp.vars) →
      (∀ v ∈ csp.vars, lookupA a v = none → s v ∈ d v) →
      n ≥ csp.vars.length - sizeA a + 1 →
      forwardCheckingSearch csp n a d ≠ none := by
  intro n
  induction n with
  | zero => intro a d _ _ _ hn; omega
  | succ n ih =>
    intro a d hnd hag hDom hn hcontra
    by_cases hsz : sizeA a = csp.vars.length
    · rw [show forwardCheckingSearch csp (n + 1) a d = some a from by
        simp [forwardCheckingSearch, if_pos hsz]] at hcontra
      simp at hcontra
    · have hsub : ∀ p ∈ a, p.1 ∈ csp.vars := fun p hp => (hag p hp).2
      obtain ⟨hulen, hale⟩ := unassigned_length csp a hnd hsub hwf.2.2
      cases hfil : csp.vars.filter (fun v => !(isBound a v)) with
      | nil =>
        rw [hfil] at hulen
        simp only [List.length_nil] at hulen
        omega
      | cons first rest2 =>
        have hloop : firstSome
            (fun x =>
              let a1 := insertA a first x
              if consistent csp first a1 then
                match forwardChecking csp first a1 d with
                | (true, a2, d2) => forwardCheckingSearch csp n a2 d2
                | (false, _, _) => none
              else none)
            (d first) = none := by
          rw [show (firstSome
              (fun x =>
                let a1 := insertA a first x
                if consistent csp first a1 then
                  match forwardChecking csp first a1 d with
                  | (true, a2, d2) => forwardCheckingSearch csp n a2 d2
                  | (false, _, _) => none
                else none)
              (d first) : Option Assignment) =
              forwardCheckingSearch csp (n + 1) a d from by
            simp [forwardCheckingSearch, if_neg hsz, hfil]]
          exact hcontra
        have hfirst : first ∈ csp.vars ∧ ¬(isBound a first = true) := by
          have hmf : first ∈ csp.vars.filter (fun v => !(isBound a v)) := by
            rw [hfil]; exact List.mem_cons_self _ _
          simpa using List.mem_filter.mp hmf
        have hnone : lookupA a first = none :=
          isBound_false_lookup a first hfirst.2
        have hx : s first ∈ d first := hDom first hfirst.1 hnone
        have hfx := firstSome_none _ _ hloop (s first) hx
        simp only at hfx
        have hag1 : ∀ p ∈ insertA a first (s first),
            s p.1 = p.2 ∧ p.1 ∈ csp.vars := by
          intro p hp
          rw [insertA_not_bound a first (s first) hnone] at hp
          rcases List.mem_append.mp hp with hpa | hpx
          · exact hag p hpa
          · have hpe : p = (first, s first) := by simpa using hpx
            rw [hpe]
            exact ⟨rfl, hfirst.1⟩
        have hcons : consistent csp first (insertA a first (s first)) = true :=
          solution_consistent csp R hwf hnn s hsol _ hag1 first hfirst.1
        rw [if_pos hcons] at hfx
        have hDom1 : ∀ v ∈ csp.vars,
            lookupA (insertA a first (s first)) v = none → s v ∈ d v := by
          intro v hv hu
          rw [lookupA_insertA_fresh a first (s first) hnone v] at hu
          by_cases hfv : first = v
          · rw [if_pos hfv] at hu; simp at hu
          · rw [if_neg hfv] at hu
            exact hDom v hv hu
        obtain ⟨hok0, hDom2⟩ := forwardChecking_sol csp R hwf hnn s hsol
          first hfirst.1 (insertA a first (s first)) d hag1 hDom1
        have hrest0 : (forwardChecking csp first
            (insertA a first (s first)) d).2.1 = insertA a first (s first) :=
          fcConstraints_assignment_restored csp first _ _ d
        rcases hfc : forwardChecking csp first (insertA a first (s first)) d
          with ⟨ok, a2, d2⟩
        rw [hfc] at hok0 hrest0 hDom2 hfx
        simp only at hok0 hrest0 hDom2
        subst hok0
        subst hrest0
        have hfx2 : forwardCheckingSearch csp n
            (insertA a first (s first)) d2 = none := hfx
        have hnd1 : (keysA (insertA a first (s first))).Nodup := by
          rw [keysA_insertA_fresh a first (s first) hnone]
          have hfk : first ∉ keysA a := by
            intro hc
            exact hfirst.2 ((isBound_iff_mem_keys a first).mpr hc)
          simp [List.nodup_append, hnd, hfk]
        have hsz1 : sizeA (insertA a first (s first)) = sizeA a + 1 :=
          sizeA_insertA_fresh a first (s first) hnone
        exact ih (insertA a first (s first)) d2 hnd1 hag1 hDom2
          (by omega) hfx2

/-- A complete, key-distinct, searched-out assignment yields a total
solution valuation (value `0` is a dummy for the impossible unbound
case). -/
theorem solution_of_complete (csp : CSP) (R : List Constraint)
    (hreg : Registered csp R) (r : Assignment)
    (hnd : (keysA r).Nodup)
    (hmem : ∀ p ∈ r, p.1 ∈ csp.vars ∧ p.2 ∈ csp.domains p.1)
    (hsat : ∀ c ∈ R, (∀ v ∈ c.varsOf, isBound r v = true) →
      c.satisfied r = true)
    (hsz : sizeA r = csp.vars.length) :
    IsSolutionVal csp R (fun v => (lookupA r v).getD 0) := by
  have hbound := complete_binds_all csp r hnd hmem hsz
  constructor
  · intro v hv
    have hb := hbound v hv
    simp only [isBound] at hb
    cases hl : lookupA r v with
    | none => rw [hl] at hb; simp at hb
    | some x =>
      have hx := (hmem (v, x) (lookupA_mem r v x hl)).2
      simp only [hl, Option.getD_some]
      exact hx
  · intro c hc
    have hall : ∀ v ∈ c.varsOf, isBound r v = true :=
      fun v hv => hbound v (hreg c hc v hv).1
    have hr := hsat c hc hall
    rw [← hr]
    apply satisfied_congr
    intro v hv
    have hvv : v ∈ csp.vars := (hreg c hc v hv).1
    rw [lookupA_totalOf _ _ v hvv]
    have hb := hbound v hvv
    simp only [isBound] at hb
    cases hl : lookupA r v with
    | none => rw [hl] at hb; simp at hb
    | some x => simp [hl]

/--
C4 (corrected: the equivalence additionally requires every domain value to
be nonnegative — see the counterexample for a model with a negative
domain value where it fails): for every well-formed model with
nonnegative domains and fuel covering all variables,
`forwardCheckingSearch` from the empty assignment (on the model's
domains) returns null if and only if `backtrackingSearch` from the empty
assignment returns null, and whenever either search returns a non-null
assignment, that assignment satisfies every registered constraint.
-/
theorem fcs_null_iff_bts_null (csp : CSP) (R : List Constraint)
    (hwf : WFModel csp R) (hnn : NonnegDomains csp) (n : Nat)
    (hn : n ≥ csp.vars.length + 1) :
    (forwardCheckingSearch csp n [] csp.domains = none ↔
      backtrackingSearch csp n [] = none) ∧
    (∀ r, backtrackingSearch csp n [] = some r →
      ∀ c ∈ R, c.satisfied r = true) ∧
    (∀ r, forwardCheckingSearch csp n [] csp.domains = some r →
      ∀ c ∈ R, c.satisfied r = true) := by
  have hreg := hwf.1
  have hndE : (keysA ([] : Assignment)).Nodup := by simp [keysA]
  have hmemE : ∀ p ∈ ([] : Assignment),
      p.1 ∈ csp.vars ∧ p.2 ∈ csp.domains p.1 := by simp
  have hsatE : ∀ c ∈ R, (∀ v ∈ c.varsOf,
      isBound ([] : Assignment) v = true) →
      c.satisfied ([] : Assignment) = true := fun c _ hall => satInv_empty c hall
  have hdsubE : ∀ v : Var, ∀ y ∈ csp.domains v, y ∈ csp.domains v :=
    fun _ _ hy => hy
  have hagE : ∀ p ∈ ([] : Assignment),
      (fun v => (0 : Int)) p.1 = p.2 ∧ p.1 ∈ csp.vars := by simp
  have hszE : sizeA ([] : Assignment) = 0 := rfl
  refine ⟨⟨?_, ?_⟩, ?_, ?_⟩
  · intro hfcs
    cases hb : backtrackingSearch csp n [] with
    | none => rfl
    | some r =>
      obtain ⟨hnd, hmem, hsat, hsz⟩ :=
        backtrackingSearch_sound csp R hreg n [] r hndE hmemE hsatE hb
      have hsol := solution_of_complete csp R hreg r hnd hmem hsat hsz
      exact absurd hfcs
        (forwardCheckingSearch_complete csp R hwf hnn _ hsol n [] csp.domains
          hndE (by simp) (fun v hv _ => hsol.1 v hv) (by omega))
  · intro hbts
    cases hf : forwardCheckingSearch csp n [] csp.domains with
    | none => rfl
    | some r =>
      obtain ⟨hnd, hmem, hsat, hsz⟩ :=
        forwardCheckingSearch_sound csp R hreg n [] csp.domains r
          hndE hmemE hsatE hdsubE hf
      have hsol := solution_of_complete csp R hreg r hnd hmem hsat hsz
      exact absurd hbts
        (backtrackingSearch_complete csp R hwf hnn _ hsol n []
          hndE (by simp) (by omega))
  · intro r hr c hc
    obtain ⟨hnd, hmem, hsat, hsz⟩ :=
      backtrackingSearch_sound csp R hreg n [] r hndE hmemE hsatE hr
    exact hsat c hc
      (fun v hv => complete_binds_all csp r hnd hmem hsz v (hreg c hc v hv).1)
  · intro r hr c hc
    obtain ⟨hnd, hmem, hsat, hsz⟩ :=
      forwardCheckingSearch_sound csp R hreg n [] csp.domains r
        hndE hmemE hsatE hdsubE hr
    exact hsat c hc
      (fun v hv => complete_binds_all csp r hnd hmem hsz v (hreg c hc v hv).1)

/-- The claim as stated over ALL models is false: on the well-formed model
`csp4`, whose variable `1` carries the negative domain value `-1`,
backtracking finds the solution `{0: 5, 1: -1, 2: 4}` of the column-sum
constraint `0 + 1 = 2`, but forward checking returns null — its
`sum > target` pruning is unsound when later addends may be negative. -/
theorem fc_vs_bt_negative_claim_counterexample :
    WFModel csp4 R4 ∧
    backtrackingSearch csp4 4 [] = some [(0, 5), (1, -1), (2, 4)] ∧
    forwardCheckingSearch csp4 4 [] csp4.domains = none := by
  refine ⟨⟨?_, ?_, ?_⟩, ?_, ?_⟩
  · show ∀ c ∈ R4, ∀ v ∈ c.varsOf, v ∈ csp4.vars ∧ c ∈ csp4.constraints v
    decide
  · show ∀ v ∈ csp4.vars, ∀ c ∈ csp4.constraints v, c ∈ R4
    decide
  · decide
  · decide
  · decide

theorem fcs_null_iff_bts_null_witness :
    (forwardCheckingSearch csp1 3 [] csp1.domains = none ↔
      backtrackingSearch csp1 3 [] = none) ∧
    (∀ r, backtrackingSearch csp1 3 [] = some r →
      ∀ c ∈ R1, c.satisfied r = true) ∧
    (∀ r, forwardCheckingSearch csp1 3 [] csp1.domains = some r →
      ∀ c ∈ R1, c.satisfied r = true) :=
  fcs_null_iff_bts_null csp1 R1
    ⟨by show ∀ c ∈ R1, ∀ v ∈ c.varsOf, v ∈ csp1.vars ∧ c ∈ csp1.constraints v
        decide,
     by show ∀ v ∈ csp1.vars, ∀ c ∈ csp1.constraints v, c ∈ R1
        decide,
     by decide⟩
    (by show ∀ v ∈ csp1.vars, ∀ x ∈ csp1.domains v, (0 : Int) ≤ x
        decide)
    3 (by decide)
